import Mathlib

/-!
AudioView of the BYB Neural Recorder: the view and interaction engine

A shallow embedding of `src/AudioView.cpp` and the properties of its
viewport arithmetic and of its pointer-driven drag state machine.

Modelling conventions.

* `float` values are `Flt`: an exact rational, or one of the IEEE-754 special values
  `+inf`, `-inf`, `NaN`.  A division by zero yields the special value IEEE-754
  prescribes, and the special values propagate the way IEEE-754 prescribes.  The sign
  of a zero is not modelled: every zero divisor in the source is a converted integer,
  hence `+0`.
* The rounding of single precision is `Flt.rnd`: the nearest value with a 24-bit
  significand, ties to even, with the subnormal range and the overflow to infinity of
  binary32.  It is applied to every literal, conversion and operation of the two
  expressions whose properties depend on it: the gain step of the wheel
  (`views[s].gain*0.8f`, `views[s].gain*1.2f` in `pressWheel`) and the value that
  `setOffset` emits (`relOffsetChanged`).  Elsewhere the arithmetic on finite values is
  exact.
* `int` values are unbounded `Int` (signed overflow is undefined in C++; no property
  below depends on wrap-around).  A `float` to `int` conversion truncates toward zero
  and is undefined on a non-finite value.
* An operation returns `none` where the C++ behaviour is undefined: conversion of a
  non-finite `float` to `int`, an out-of-range `views[i]`, a `resize` with a negative
  count.
* `mousePressEvent` is the body of the method, which is all of it in a build with
  `NDEBUG`; `mousePressEventAsserted` is the method with its final `assert`, which
  aborts the program when more than one drag is active.
* The constants `SampleBuffer::SIZE`, `RecordingManager::SAMPLE_RATE` and
  `MOVEPIN_SIZE` are declared in headers outside `src/`; they are the fields of
  `Config`, a parameter of every operation that uses one.
-/

namespace BackyardBrains

/-! ## The `float` model -/

/-- A C++ `float`: a finite value (kept as an exact rational) or an IEEE special value. -/
inductive Flt where
  | fin (q : ℚ)
  | pinf
  | ninf
  | nan
  deriving DecidableEq

namespace Flt

/-- Conversion `int -> float`. -/
def ofInt (i : Int) : Flt := fin (i : ℚ)

/-- Infinity carrying the sign of a non-zero rational, `NaN` for zero. -/
def signedInf (q : ℚ) : Flt :=
  if 0 < q then pinf else if q < 0 then ninf else nan

/-- Float addition. -/
def add : Flt → Flt → Flt
  | fin a, fin b => fin (a + b)
  | fin _, pinf => pinf
  | fin _, ninf => ninf
  | pinf, fin _ => pinf
  | pinf, pinf => pinf
  | ninf, fin _ => ninf
  | ninf, ninf => ninf
  | _, _ => nan

/-- Float negation. -/
def neg : Flt → Flt
  | fin a => fin (-a)
  | pinf => ninf
  | ninf => pinf
  | nan => nan

/-- Float subtraction. -/
def sub (a b : Flt) : Flt := add a (neg b)

/-- Float multiplication. -/
def mul : Flt → Flt → Flt
  | fin a, fin b => fin (a * b)
  | fin a, pinf => signedInf a
  | fin a, ninf => signedInf (-a)
  | pinf, fin b => signedInf b
  | ninf, fin b => signedInf (-b)
  | pinf, pinf => pinf
  | ninf, ninf => pinf
  | pinf, ninf => ninf
  | ninf, pinf => ninf
  | _, _ => nan

/-- Float division; a finite value divided by zero is a signed infinity, `0/0` is `NaN`. -/
def div : Flt → Flt → Flt
  | fin a, fin b => if b = 0 then signedInf a else fin (a / b)
  | fin _, pinf => fin 0
  | fin _, ninf => fin 0
  | pinf, fin b => if 0 ≤ b then pinf else ninf
  | ninf, fin b => if 0 ≤ b then ninf else pinf
  | _, _ => nan

/-- The comparison `a < b` of two floats; false as soon as one of them is `NaN`. -/
def lt : Flt → Flt → Bool
  | fin a, fin b => decide (a < b)
  | fin _, pinf => true
  | ninf, fin _ => true
  | ninf, pinf => true
  | _, _ => false

/-- The comparison `a <= b` of two floats; false as soon as one of them is `NaN`. -/
def le : Flt → Flt → Bool
  | fin a, fin b => decide (a ≤ b)
  | fin _, pinf => true
  | ninf, fin _ => true
  | ninf, pinf => true
  | pinf, pinf => true
  | ninf, ninf => true
  | _, _ => false

/-- The function `std::min(a, b)`, which is `(b < a) ? b : a`. -/
def fmin (a b : Flt) : Flt := if lt b a then b else a

/-- The function `std::max(a, b)`, which is `(a < b) ? b : a`. -/
def fmax (a b : Flt) : Flt := if lt a b then b else a

/-- The function `std::fabs`. -/
def fabs : Flt → Flt
  | fin a => fin |a|
  | pinf => pinf
  | ninf => pinf
  | nan => nan

instance : Add Flt := ⟨add⟩
instance : Sub Flt := ⟨sub⟩
instance : Mul Flt := ⟨mul⟩
instance : Div Flt := ⟨div⟩

end Flt

/-- Truncation of a rational toward zero. -/
def truncQ (q : ℚ) : Int := if 0 ≤ q then ⌊q⌋ else ⌈q⌉

/-- Conversion `float -> int`: truncation toward zero, undefined on a non-finite value. -/
def Flt.toInt : Flt → Option Int
  | Flt.fin q => some (truncQ q)
  | _ => none

/-- The closed range test `lo <= x <= hi` on floats, with rational bounds. -/
def Flt.within (lo hi : ℚ) (x : Flt) : Prop :=
  ∃ q : ℚ, x = Flt.fin q ∧ lo ≤ q ∧ q ≤ hi

/-! ## Single precision -/

/-- The integer nearest to a rational, a tie going to the even neighbour: the rounding of
IEEE-754 arithmetic. -/
def roundEven (q : ℚ) : Int :=
  if q - ⌊q⌋ < 1 / 2 then ⌊q⌋
  else if 1 / 2 < q - ⌊q⌋ then ⌊q⌋ + 1
  else if ⌊q⌋ % 2 = 0 then ⌊q⌋ else ⌊q⌋ + 1

/-- The integer `⌊log2 n⌋` of a natural `n >= 1`, by halving `n` until it is below 2;
`fuel` bounds the number of steps and `fuel = n` is enough. -/
def log2Fuel : Nat → Nat → Nat
  | 0, _ => 0
  | fuel + 1, n => if n < 2 then 0 else log2Fuel fuel (n / 2) + 1

/-- The integer `⌈log2 n⌉` of a natural `n >= 1`, by halving `n` upwards until it is
below 2; `fuel` bounds the number of steps and `fuel = n` is enough. -/
def clog2Fuel : Nat → Nat → Nat
  | 0, _ => 0
  | fuel + 1, n => if n < 2 then 0 else clog2Fuel fuel ((n + 1) / 2) + 1

/-- The integer `⌊log2 r⌋` of a positive rational `r`. -/
def ilog2 (r : ℚ) : Int :=
  if 1 ≤ r then (log2Fuel ⌊r⌋₊ ⌊r⌋₊ : Nat) else -(clog2Fuel ⌈r⁻¹⌉₊ ⌈r⁻¹⌉₊ : Nat)

/-- The binary exponent `e` of the `float` values around `q`: `2^e <= |q| < 2^(e+1)` for
a normal magnitude, `-126` for a subnormal one and for zero. -/
def binade (q : ℚ) : Int := if q = 0 then -126 else max (ilog2 |q|) (-126)

/-- The value of a 24-bit significand nearest to `q`: around `q` the `float` values are the
multiples of `2^(e-23)`.  The exponent is bounded below as in binary32 and unbounded
above; `Flt.rnd` adds the overflow. -/
def f32 (q : ℚ) : ℚ := roundEven (q / 2 ^ (binade q - 23)) * 2 ^ (binade q - 23)

/-- The rounding that ends a `float` operation: the exact result is replaced by the nearest
binary32 value, an infinity when that is beyond the largest finite `float`. -/
def Flt.rnd : Flt → Flt
  | Flt.fin q => if (2 : ℚ) ^ (128 : Nat) ≤ |f32 q| then Flt.signedInf q else Flt.fin (f32 q)
  | x => x

/-- A `float` literal of the source, such as `0.8f`: the binary32 value nearest to the
decimal. -/
def Flt.lit (q : ℚ) : Flt := Flt.rnd (Flt.fin q)

/-! ## Data model -/

/-- The constants of the headers that `AudioView.cpp` includes. -/
structure Config where
  /-- The capacity `SampleBuffer::SIZE` of the circular sample buffer, in samples. -/
  SIZE : Int
  /-- The sample rate `RecordingManager::SAMPLE_RATE`, in samples per second. -/
  SAMPLE_RATE : Int
  /-- The side `MOVEPIN_SIZE` of a pin, in pixels. -/
  MOVEPIN_SIZE : Int

/-- Per-channel visual state, an element of `AudioView::views`. -/
structure ChannelView where
  gain : Flt
  pos : Flt
  thresh : Flt
  deriving DecidableEq

/-- The member variables of `AudioView`, together with the widget rectangle `rect()`. -/
structure AudioView where
  views : List ChannelView
  clickedGain : Int
  clickedSlider : Int
  clickedPixelOffset : Int
  prevGain : Flt
  clickedThresh : Bool
  channelOffset : Int
  selectedChannel : Int
  threshMode : Bool
  timeScale : Flt
  /-- The value of `rect().width()`. -/
  width : Int
  /-- The value of `rect().height()`. -/
  height : Int
  deriving DecidableEq

/-- The buttons of a `Widgets::MouseEvent` that `AudioView` distinguishes. -/
inductive MouseButton where
  | LeftButton
  | WheelUpButton
  | WheelDownButton
  | OtherButton
  deriving DecidableEq

/-- The element `views[i]` for an `int` index; undefined outside `0 <= i < size`. -/
def viewAt (views : List ChannelView) (i : Int) : Option ChannelView :=
  if 0 ≤ i then views[i.toNat]? else none

/-- The list after the assignment `views[i] = v`; undefined outside `0 <= i < size`. -/
def setViewAt (views : List ChannelView) (i : Int) (v : ChannelView) :
    Option (List ChannelView) :=
  if 0 ≤ i ∧ i.toNat < views.length then some (views.set i.toNat v) else none

/-! ## Construction and resizing -/

/-- The constructor `AudioView::AudioView`.  The widget rectangle comes from the base
class; `prevGain` is a member the constructor leaves uninitialised. -/
def AudioView.init (width height : Int) (prevGain : Flt) : AudioView where
  views := []
  clickedGain := -1
  clickedSlider := -1
  clickedPixelOffset := 0
  prevGain := prevGain
  clickedThresh := false
  channelOffset := 0
  selectedChannel := 0
  threshMode := false
  timeScale := Flt.fin 0.1
  width := width
  height := height

/-- The values the loop of `updateView` assigns to the new entry of index `i`. -/
def newView (i : Nat) : ChannelView where
  gain := Flt.fin 1
  pos := Flt.fin 0.4 + Flt.fin 0.1 * Flt.ofInt i
  thresh := Flt.fin 0.1

/-- The method `AudioView::updateView`.  A negative `n` reaches `views.resize(n)` as a
huge unsigned count, which throws. -/
def updateView (s : AudioView) (n : Int) : Option AudioView :=
  if n < (s.views.length : Int) then
    if n < 0 then none else some { s with views := s.views.take n.toNat }
  else if n > (s.views.length : Int) then
    let oldsize := s.views.length
    some { s with views := s.views ++ (List.range' oldsize (n.toNat - oldsize)).map newView }
  else some s

/-! ## Viewport mapper -/

/-- The method `AudioView::scaleWidth`. -/
def scaleWidth (s : AudioView) : Flt :=
  Flt.fin 0.05 * Flt.ofInt s.width / s.timeScale

/-- The method `AudioView::screenWidth`: the `int` local `screenw`, which the method
returns converted to `float`.  Both subtractions are `float` subtractions of finite
values stored back into an `int`. -/
def screenWidth (cfg : Config) (s : AudioView) : Int :=
  let screenw := truncQ ((s.width : ℚ) - (cfg.MOVEPIN_SIZE : ℚ) * 1.5)
  if s.threshMode then truncQ ((screenw : ℚ) - (cfg.MOVEPIN_SIZE : ℚ) * 1.5) else screenw

/-- The method `AudioView::sampleCount`. -/
def sampleCount (cfg : Config) (screenw scalew : Flt) : Flt :=
  screenw * Flt.ofInt cfg.SAMPLE_RATE / scalew

/-- The local `int samples = sampleCount(screenWidth(), scaleWidth())` of `setOffset`:
the number of samples visible on the screen. -/
def visibleSamples (cfg : Config) (s : AudioView) : Option Int :=
  (sampleCount cfg (Flt.ofInt (screenWidth cfg s)) (scaleWidth s)).toInt

/-- The method `AudioView::thresholdPos`. -/
def thresholdPos (s : AudioView) : Option Flt :=
  (viewAt s.views s.selectedChannel).map fun v =>
    Flt.ofInt s.height * (v.pos - v.thresh * v.gain)

/-- The value `setOffset` stores in `channelOffset`, given the visible sample count. -/
def clampOffset (cfg : Config) (samples offset : Int) : Int :=
  let channelOffset := min 0 offset
  if channelOffset < -cfg.SIZE + samples then -cfg.SIZE + samples else channelOffset

/-- The method `AudioView::setOffset`: the new state and the value emitted on
`relOffsetChanged`, the latter in exact arithmetic; `relOffsetChanged` is the same
expression as single precision evaluates it. -/
def setOffset (cfg : Config) (s : AudioView) (offset : Int) : Option (AudioView × Flt) :=
  (visibleSamples cfg s).map fun samples =>
    let channelOffset := clampOffset cfg samples offset
    ({ s with channelOffset := channelOffset },
     Flt.fin 1000 * Flt.ofInt channelOffset / Flt.ofInt (cfg.SIZE - samples) + Flt.fin 1000)

/-- The method `AudioView::toggleThreshMode`. -/
def toggleThreshMode (s : AudioView) : AudioView :=
  { s with threshMode := !s.threshMode }

/-- The method `AudioView::setRelOffset`. -/
def setRelOffset (cfg : Config) (s : AudioView) (reloffset : Int) : Option AudioView :=
  let f := Flt.ofInt reloffset * Flt.fin 0.001 - Flt.fin 1
  (Flt.ofInt cfg.SIZE - sampleCount cfg (Flt.ofInt (screenWidth cfg s)) (scaleWidth s)).toInt.bind
    fun count => (f * Flt.ofInt count).toInt.map fun channelOffset =>
      { s with channelOffset := channelOffset }

/-! ## Hit tests -/

/-- The outcome of a hit test over the channels: the index found and the pixel distance
computed for it, or no channel. -/
inductive Hover where
  | miss
  | hit (i : Nat) (d : Int)
  deriving DecidableEq

/-- The loop of `determineSliderHover` over the remaining channels `views`, the first of
which has index `i`; `xx` is the squared horizontal distance. -/
def sliderScan (cfg : Config) (height xx y : Int) : List ChannelView → Nat → Option Hover
  | [], _ => some Hover.miss
  | v :: views, i =>
    (Flt.ofInt y - Flt.ofInt height * v.pos).toInt.bind fun dy =>
      let yy := dy * dy
      if ((xx + yy : Int) : ℚ) < (cfg.MOVEPIN_SIZE : ℚ) * cfg.MOVEPIN_SIZE * 0.25 then
        some (Hover.hit i dy)
      else sliderScan cfg height xx y views (i + 1)

/-- The method `AudioView::determineSliderHover`: `hit i dy` for the return value `i`
with `dy` written through `yoffset`, `miss` for the return value `-1`. -/
def determineSliderHover (cfg : Config) (s : AudioView) (x y : Int) : Option Hover :=
  let xx := cfg.MOVEPIN_SIZE - x
  let xx := xx * xx
  sliderScan cfg s.height xx y s.views 0

/-- The method `AudioView::determineThreshHover`: `some dy` for the return value `1` with
`dy` written through `yoffset`, `none` for the return value `0`. -/
def determineThreshHover (cfg : Config) (s : AudioView) (x y : Int) : Option (Option Int) :=
  let xx := s.width - cfg.MOVEPIN_SIZE - x
  (thresholdPos s).bind fun tp =>
    (Flt.ofInt y - Flt.fmax (Flt.fin ((cfg.MOVEPIN_SIZE : ℚ) / 2)) tp).toInt.map fun dy =>
      let yy := dy * dy
      let xx := xx * xx
      if ((xx + yy : Int) : ℚ) < (cfg.MOVEPIN_SIZE : ℚ) * cfg.MOVEPIN_SIZE * 0.25 then
        some dy
      else none

/-- The gain-handle loop of `mousePressEvent` over the remaining channels `views`, the
first of which has index `i`. -/
def gainScan (height y : Int) : List ChannelView → Nat → Option Hover
  | [], _ => some Hover.miss
  | v :: views, i =>
    (Flt.ofInt height * v.pos - Flt.ofInt y).toInt.bind fun yy =>
      let yy := if yy < 0 then yy * -1 else yy
      if Flt.lt (Flt.ofInt yy) (Flt.fin 40 + Flt.fin 20 * v.gain) then
        some (Hover.hit i yy)
      else gainScan height y views (i + 1)

/-! ## Interaction controller -/

/-- The first part of the `LeftButton` branch of `mousePressEvent`: the slider test and,
in its `else if`, the gain-handle test. -/
def pressSliderOrGain (cfg : Config) (s : AudioView) (x y : Int) : Option AudioView :=
  if s.clickedSlider = -1 ∧ (x : ℚ) ≤ (cfg.MOVEPIN_SIZE : ℚ) * 1.5 then
    (determineSliderHover cfg s x y).map fun r =>
      match r with
      | Hover.hit i dy =>
        { s with clickedSlider := i, clickedPixelOffset := dy, selectedChannel := i }
      | Hover.miss => { s with clickedSlider := -1 }
  else if s.clickedGain = -1 ∧
      (s.threshMode = false ∨ (x : ℚ) ≤ (s.width : ℚ) - (cfg.MOVEPIN_SIZE : ℚ) * 1.5) then
    (gainScan s.height y s.views 0).bind fun r =>
      match r with
      | Hover.hit i yy =>
        s.views[i]?.map fun v =>
          { s with clickedGain := i, clickedPixelOffset := yy, prevGain := v.gain }
      | Hover.miss => some s
  else some s

/-- The second part of the `LeftButton` branch of `mousePressEvent`: the threshold test. -/
def pressThresh (cfg : Config) (s : AudioView) (x y : Int) : Option AudioView :=
  if s.threshMode then
    (determineThreshHover cfg s x y).map fun r =>
      match r with
      | some dy => { s with clickedThresh := true, clickedPixelOffset := dy }
      | none => { s with clickedThresh := false }
  else some s

/-- The `WheelUpButton` and `WheelDownButton` branches of `mousePressEvent`; `up`
selects the first.  Left of the pin column boundary the wheel edits the gain of the
channel whose pin is under the pointer, elsewhere the time base.  The gain step is
evaluated in single precision: the literals and the product are rounded. -/
def pressWheel (cfg : Config) (s : AudioView) (up : Bool) (x y : Int) : Option AudioView :=
  if x < Int.tdiv (cfg.MOVEPIN_SIZE * 3) 2 then
    (determineSliderHover cfg s x y).bind fun r =>
      match r with
      | Hover.hit i _ =>
        s.views[i]?.map fun v =>
          let gain :=
            if up then Flt.fmin (Flt.lit 10) (Flt.rnd (v.gain * Flt.lit 1.2))
            else Flt.fmax (Flt.lit 0.001) (Flt.rnd (v.gain * Flt.lit 0.8))
          { s with views := s.views.set i { v with gain := gain } }
      | Hover.miss => some s
  else if s.threshMode = false ∨ x < s.width - Int.tdiv (cfg.MOVEPIN_SIZE * 3) 2 then
    let timeScale :=
      if up then Flt.fmax (Flt.fin 1 / Flt.ofInt cfg.SAMPLE_RATE) (s.timeScale * Flt.fin 0.8)
      else Flt.fmin (Flt.fin 2) (s.timeScale * Flt.fin 1.2)
    let s := { s with timeScale := timeScale }
    (setOffset cfg s s.channelOffset).map Prod.fst
  else some s

/-- The method `AudioView::mousePressEvent`, up to its final assertion: the whole method
in a build with `NDEBUG`. -/
def mousePressEvent (cfg : Config) (s : AudioView) (button : MouseButton) (x y : Int) :
    Option AudioView :=
  match button with
  | MouseButton.LeftButton => (pressSliderOrGain cfg s x y).bind fun s => pressThresh cfg s x y
  | MouseButton.WheelUpButton => pressWheel cfg s true x y
  | MouseButton.WheelDownButton => pressWheel cfg s false x y
  | MouseButton.OtherButton => some s

/-- The number of active drags, the left-hand side of the assertion that ends
`mousePressEvent`: `(clickedGain != -1) + (clickedSlider != -1) + clickedThresh`. -/
def activeDrags (s : AudioView) : Nat :=
  (if s.clickedGain ≠ -1 then 1 else 0) + (if s.clickedSlider ≠ -1 then 1 else 0)
    + (if s.clickedThresh then 1 else 0)

/-- The method `AudioView::mousePressEvent` with its final `assert`, as in a build with
assertions enabled: when more than one drag is active at the end of the event the program
aborts and there is no state after the call. -/
def mousePressEventAsserted (cfg : Config) (s : AudioView) (button : MouseButton) (x y : Int) :
    Option AudioView :=
  (mousePressEvent cfg s button x y).bind fun s => if activeDrags s ≤ 1 then some s else none

/-- The method `AudioView::mouseReleaseEvent`. -/
def mouseReleaseEvent (s : AudioView) (button : MouseButton) : AudioView :=
  if button = MouseButton.LeftButton then
    { s with clickedSlider := -1, clickedThresh := false, clickedGain := -1 }
  else s

/-- The slider branch of `mouseMotionEvent`. -/
def motionSlider (s : AudioView) (y : Int) : Option AudioView :=
  if s.clickedSlider ≠ -1 then
    (viewAt s.views s.clickedSlider).bind fun v =>
      let pos := Flt.fmax (Flt.fin 0.05)
        (Flt.fmin (Flt.fin 0.95) (Flt.ofInt (y + s.clickedPixelOffset) / Flt.ofInt s.height))
      (setViewAt s.views s.clickedSlider { v with pos := pos }).map fun views =>
        { s with views := views }
  else some s

/-- The threshold branch of `mouseMotionEvent`. -/
def motionThresh (cfg : Config) (s : AudioView) (y : Int) : Option AudioView :=
  if s.clickedThresh then
    (viewAt s.views s.selectedChannel).bind fun v =>
      let t := Flt.ofInt (y - s.clickedPixelOffset) / Flt.ofInt s.height
      let t := Flt.fmax (Flt.ofInt cfg.MOVEPIN_SIZE / Flt.ofInt s.height) t
      let t := Flt.fmin v.pos t
      (setViewAt s.views s.selectedChannel { v with thresh := (v.pos - t) / v.gain }).map
        fun views => { s with views := views }
  else some s

/-- The gain branch of `mouseMotionEvent`. -/
def motionGain (s : AudioView) (y : Int) : Option AudioView :=
  if s.clickedGain ≠ -1 then
    (viewAt s.views s.clickedGain).bind fun v =>
      let newGain := s.prevGain *
        Flt.fabs ((Flt.ofInt s.height * v.pos - Flt.ofInt y) / Flt.ofInt s.clickedPixelOffset)
      (setViewAt s.views s.clickedGain
          { v with gain := Flt.fmax (Flt.fin 0.001) (Flt.fmin (Flt.fin 10) newGain) }).map
        fun views => { s with views := views }
  else some s

/-- The method `AudioView::mouseMotionEvent`: its three branches in sequence; only the
pointer's `y` is read. -/
def mouseMotionEvent (cfg : Config) (s : AudioView) (y : Int) : Option AudioView :=
  (motionSlider s y).bind fun s => (motionThresh cfg s y).bind fun s => motionGain s y

/-- A change of the widget rectangle; `AudioView::resizeEvent` itself does nothing. -/
def resizeEvent (s : AudioView) (width height : Int) : AudioView :=
  { s with width := width, height := height }

/-- The calls the host application makes on an `AudioView`. -/
inductive Call where
  | updateView (n : Int)
  | setOffset (offset : Int)
  | setRelOffset (reloffset : Int)
  | toggleThreshMode
  | mousePress (button : MouseButton) (x y : Int)
  | mouseRelease (button : MouseButton)
  | mouseMotion (y : Int)
  | resize (width height : Int)

/-- The effect of one call on the state; `none` where the C++ behaviour is undefined. -/
def step (cfg : Config) (s : AudioView) : Call → Option AudioView
  | Call.updateView n => updateView s n
  | Call.setOffset offset => (setOffset cfg s offset).map Prod.fst
  | Call.setRelOffset reloffset => setRelOffset cfg s reloffset
  | Call.toggleThreshMode => some (toggleThreshMode s)
  | Call.mousePress button x y => mousePressEvent cfg s button x y
  | Call.mouseRelease button => some (mouseReleaseEvent s button)
  | Call.mouseMotion y => mouseMotionEvent cfg s y
  | Call.resize width height => some (resizeEvent s width height)

/-- The state after a sequence of calls, each of them defined. -/
def run (cfg : Config) (s : AudioView) : List Call → Option AudioView
  | [] => some s
  | c :: cs => (step cfg s c).bind fun s => run cfg s cs

/-- The states reachable from a freshly constructed view by defined calls. -/
def Reachable (cfg : Config) (s : AudioView) : Prop :=
  ∃ (width height : Int) (prevGain : Flt) (calls : List Call),
    run cfg (AudioView.init width height prevGain) calls = some s

/-- The finite time scale a wheel step computes from the finite time scale `ts`:
`max(1/SAMPLE_RATE, ts*0.8)` on wheel-up (zoom in), `min(2, ts*1.2)` on wheel-down. -/
def zoomedScale (cfg : Config) (up : Bool) (ts : ℚ) : ℚ :=
  if up then max (1 / (cfg.SAMPLE_RATE : ℚ)) (ts * 0.8) else min 2 (ts * 1.2)

/-- Every channel view satisfies `P`, which may depend on the channel index. -/
def ViewsSatisfy (P : Nat → ChannelView → Prop) (views : List ChannelView) : Prop :=
  ∀ (i : Nat) (v : ChannelView), views[i]? = some v → P i v

/-- The gain invariant of the data model: every channel has `0.001 <= gain <= 10`. -/
def gainsInRange (s : AudioView) : Prop :=
  ViewsSatisfy (fun _ v => v.gain.within 0.001 10) s.views

/-- A property of channel views that every edit the view makes to an entry keeps: the
clamped position of a slider drag, the threshold of a threshold drag, the clamped gain of
a gain drag, the two wheel steps of the gain, and the defaults of a new entry. -/
structure KeptByEdits (P : Nat → ChannelView → Prop) : Prop where
  pos : ∀ i v x, P i v →
    P i { v with pos := Flt.fmax (Flt.fin 0.05) (Flt.fmin (Flt.fin 0.95) x) }
  thresh : ∀ i v t, P i v → P i { v with thresh := t }
  gain : ∀ i v x, P i v →
    P i { v with gain := Flt.fmax (Flt.fin 0.001) (Flt.fmin (Flt.fin 10) x) }
  wheelUp : ∀ i v, P i v →
    P i { v with gain := Flt.fmin (Flt.lit 10) (Flt.rnd (v.gain * Flt.lit 1.2)) }
  wheelDown : ∀ i v, P i v →
    P i { v with gain := Flt.fmax (Flt.lit 0.001) (Flt.rnd (v.gain * Flt.lit 0.8)) }
  fresh : ∀ i, P i (newView i)

/-- The bound on the vertical positions that the code maintains: the channel of index `i`
has `0.05 <= pos <= max(0.95, 0.4 + 0.1*i)`. -/
def positionsBounded (s : AudioView) : Prop :=
  ViewsSatisfy (fun i v => v.pos.within 0.05 (max 0.95 (0.4 + 0.1 * (i : ℚ)))) s.views

/-- Modelled from the spec: the headers that declare `SampleBuffer::SIZE`,
`RecordingManager::SAMPLE_RATE` and `MOVEPIN_SIZE` are missing from `src/`.  The capacity
of 100000 samples and the sample rate of 10000 are those of the spec's viewport scenario;
the pin side of 30 pixels is a value chosen for the scenarios. -/
def scenarioConfig : Config where
  SIZE := 100000
  SAMPLE_RATE := 10000
  MOVEPIN_SIZE := 30

/-- A freshly constructed view of 1000 by 400 pixels (time scale 0.1). -/
def freshView : AudioView := AudioView.init 1000 400 (Flt.fin 1)

/-- The fresh view zoomed out to the largest time scale, 2.0. -/
def zoomedOutView : AudioView := { freshView with timeScale := Flt.fin 2 }

/-- Calls that press the left button twice on the pin of the only channel, with no
release in between. -/
def doublePressCalls : List Call :=
  [Call.updateView 1, Call.mousePress MouseButton.LeftButton 30 160,
   Call.mousePress MouseButton.LeftButton 30 160]

/-- Calls that press the left button once, in threshold mode, in a view so narrow that
the pin column and the threshold column overlap. -/
def narrowPressCalls : List Call :=
  [Call.updateView 1, Call.toggleThreshMode, Call.mousePress MouseButton.LeftButton 30 40]

/-- A 1000 by 400 view at time scale 0.5, where 95500 samples are visible. -/
def halfSecondView : AudioView := { freshView with timeScale := Flt.fin 0.5 }

/-- A view of width zero. -/
def zeroWidthView : AudioView := AudioView.init 0 400 (Flt.fin 1)

/-- Calls of the spec's scenario: one channel, the left button pressed on the centre of
its pin (view height 400, pin at `y = 160`), the pointer moved 100 pixels down. -/
def centreDragCalls : List Call :=
  [Call.updateView 1, Call.mousePress MouseButton.LeftButton 30 160, Call.mouseMotion 260]

/-- Calls that press the left button 10 pixels below the centre of the pin, inside its
hit circle of radius 15, and move the pointer 100 pixels down. -/
def offCentreDragCalls : List Call :=
  [Call.updateView 1, Call.mousePress MouseButton.LeftButton 30 170, Call.mouseMotion 270]

/-- Calls that press the left button 10 pixels below the centre of the pin and report a
motion event at the point of the press. -/
def offCentreHoldCalls : List Call :=
  [Call.updateView 1, Call.mousePress MouseButton.LeftButton 30 170, Call.mouseMotion 170]

/-- A view 100 pixels high in threshold mode whose only channel sits at the top
position 0.05, with the threshold drag active. -/
def lowThresholdDragView : AudioView :=
  { AudioView.init 1000 100 (Flt.fin 1) with
    views := [{ gain := Flt.fin 1, pos := Flt.fin 0.05, thresh := Flt.fin 0.1 }]
    threshMode := true
    clickedThresh := true }

/-- A view 400 pixels high in threshold mode with one default channel and the threshold
drag active. -/
def thresholdDragView : AudioView :=
  { AudioView.init 1000 400 (Flt.fin 1) with
    views := [newView 0]
    threshMode := true
    clickedThresh := true }

/-- A 1000 by 400 view with one default channel whose gain drag is active with the
anchor `clickedPixelOffset = 0`, as after a press exactly on the channel line. -/
def gainDragView : AudioView :=
  { AudioView.init 1000 400 (Flt.fin 1) with
    views := [newView 0]
    clickedGain := 0
    clickedPixelOffset := 0 }

/-- Calls that create seven channels. -/
def sevenChannelCalls : List Call := [Call.updateView 7]

/-- Calls that create three channels. -/
def threeChannelCalls : List Call := [Call.updateView 3]

/-- Calls that create three channels, select the last one by a click on its pin (at
`y = 0.6 * 400 = 240`) and shrink the list to one channel. -/
def shrinkBelowSelectionCalls : List Call :=
  [Call.updateView 3, Call.mousePress MouseButton.LeftButton 30 240,
   Call.mouseRelease MouseButton.LeftButton, Call.updateView 1]

/-- The fresh view with three default channels, the first of them selected. -/
def threeChannelView : AudioView :=
  { freshView with views := [newView 0, newView 1, newView 2] }

/-- The value `clamp((y + anchor)/h, 0.05, 0.95)` of a position-pin drag. -/
def clampedPos (y anchor height : Int) : ℚ :=
  max 0.05 (min 0.95 (((y + anchor : Int) : ℚ) / height))

/-- A 1000 by 400 view with one default channel whose slider drag is active, as after a
press on the centre of its pin. -/
def sliderDragView : AudioView :=
  { AudioView.init 1000 400 (Flt.fin 1) with
    views := [newView 0]
    clickedSlider := 0
    clickedPixelOffset := 0 }

/-- The finite gain a wheel-down step on a pin computes from the finite gain `g`:
`max(0.001f, g*0.8f)` with the literals and the product rounded to single precision. -/
def wheelDownGain (g : ℚ) : ℚ := max (f32 0.001) (f32 (g * f32 0.8))

/-- A sequence of `n` wheel-down events at the same point. -/
def wheelDownCalls (n : Nat) (x y : Int) : List Call :=
  List.replicate n (Call.mousePress MouseButton.WheelDownButton x y)

/-- A 1000 by 400 view with one default channel and no drag active. -/
def oneChannelView : AudioView := { freshView with views := [newView 0] }

/-- The local `dy` of `determineSliderHover` for one channel: `y - h*pos` converted to
`int`. -/
def pinDistance (height y : Int) (v : ChannelView) : Option Int :=
  (Flt.ofInt y - Flt.ofInt height * v.pos).toInt

/-- The pin hit test `xx + yy < MOVEPIN_SIZE*MOVEPIN_SIZE*0.25f` of `determineSliderHover`,
for the horizontal pixel distance `dx = MOVEPIN_SIZE - x` and the vertical one `dy`. -/
def pinTest (cfg : Config) (dx dy : Int) : Prop :=
  ((dx * dx + dy * dy : Int) : ℚ) < (cfg.MOVEPIN_SIZE : ℚ) * cfg.MOVEPIN_SIZE * 0.25

/-- The pointer `(x, y)` passes the pin hit test of the channel view `v`. -/
def onPin (cfg : Config) (height x y : Int) (v : ChannelView) : Prop :=
  ∃ dy, pinDistance height y v = some dy ∧ pinTest cfg (cfg.MOVEPIN_SIZE - x) dy

/-- The pin hit test of the channel view `v` is defined and fails at `(x, y)`. -/
def offPin (cfg : Config) (height x y : Int) (v : ChannelView) : Prop :=
  ∃ dy, pinDistance height y v = some dy ∧ ¬ pinTest cfg (cfg.MOVEPIN_SIZE - x) dy

/-- The local `yy` of the gain-handle loop of `mousePressEvent` for one channel:
`|int(h*pos - y)|`. -/
def gainDistance (height y : Int) (v : ChannelView) : Option Int :=
  (Flt.ofInt height * v.pos - Flt.ofInt y).toInt.map fun yy => if yy < 0 then yy * -1 else yy

/-- The pointer height `y` passes the gain-handle test `yy < 40+20*gain` of the channel
view `v`, at the pixel distance `d`. -/
def inGainBand (height y : Int) (v : ChannelView) (d : Int) : Prop :=
  gainDistance height y v = some d ∧
    Flt.lt (Flt.ofInt d) (Flt.fin 40 + Flt.fin 20 * v.gain) = true

/-- The gain-handle test of the channel view `v` is defined and fails at the height `y`. -/
def outOfGainBand (height y : Int) (v : ChannelView) : Prop :=
  ∃ d, gainDistance height y v = some d ∧
    Flt.lt (Flt.ofInt d) (Flt.fin 40 + Flt.fin 20 * v.gain) = false

/-- Calls that create one channel and press the left button exactly on its line
(`y = 0.4 * 400 = 160`), right of the pin column. -/
def pressOnLineCalls : List Call :=
  [Call.updateView 1, Call.mousePress MouseButton.LeftButton 500 160]

/-- A view 400 pixels high with two channels: the line of the first lies at `y = 160.5`
and its gain is 1.01, the line of the second lies at `y = 200` and its gain is 5. -/
def misalignedGainView : AudioView :=
  { freshView with views :=
      [{ gain := Flt.fin 1.01, pos := Flt.fin 0.40125, thresh := Flt.fin 0.1 },
       { gain := Flt.fin 5, pos := Flt.fin 0.5, thresh := Flt.fin 0.1 }] }

/-- A view 400 pixels high with two channels whose pins overlap: their centres lie at
`y = 160.5` and at `y = 170`. -/
def overlappingPinsView : AudioView :=
  { freshView with views :=
      [{ gain := Flt.fin 1, pos := Flt.fin 0.40125, thresh := Flt.fin 0.1 },
       { gain := Flt.fin 1, pos := Flt.fin 0.425, thresh := Flt.fin 0.1 }] }

/-- A view of 60 by 100 pixels in threshold mode with one default channel and no drag
active: it is narrower than `3*MOVEPIN_SIZE`, so that the pin column and the threshold
column overlap. -/
def narrowThreshView : AudioView :=
  { AudioView.init 60 100 (Flt.fin 1) with views := [newView 0], threshMode := true }

@[simp] theorem Flt.fin_add_fin (a b : ℚ) : Flt.fin a + Flt.fin b = Flt.fin (a + b) := rfl

@[simp] theorem Flt.fin_sub_fin (a b : ℚ) : Flt.fin a - Flt.fin b = Flt.fin (a - b) := by
  show Flt.add (Flt.fin a) (Flt.neg (Flt.fin b)) = _
  simp [Flt.add, Flt.neg, sub_eq_add_neg]

@[simp] theorem Flt.fin_mul_fin (a b : ℚ) : Flt.fin a * Flt.fin b = Flt.fin (a * b) := rfl

theorem Flt.fin_div_fin (a b : ℚ) :
    Flt.fin a / Flt.fin b = if b = 0 then Flt.signedInf a else Flt.fin (a / b) := rfl

theorem Flt.fin_div_fin_of_ne (a : ℚ) {b : ℚ} (hb : b ≠ 0) :
    Flt.fin a / Flt.fin b = Flt.fin (a / b) := by
  rw [Flt.fin_div_fin, if_neg hb]

@[simp] theorem Flt.toInt_fin (q : ℚ) : (Flt.fin q).toInt = some (truncQ q) := rfl

@[simp] theorem Flt.lt_fin_fin (a b : ℚ) : Flt.lt (Flt.fin a) (Flt.fin b) = decide (a < b) := rfl

theorem Flt.fmin_fin_fin (a b : ℚ) : Flt.fmin (Flt.fin a) (Flt.fin b) = Flt.fin (min a b) := by
  unfold Flt.fmin
  by_cases h : b < a
  · simp [h, min_eq_right h.le]
  · simp [h, min_eq_left (not_lt.mp h)]

theorem Flt.fmax_fin_fin (a b : ℚ) : Flt.fmax (Flt.fin a) (Flt.fin b) = Flt.fin (max a b) := by
  unfold Flt.fmax
  by_cases h : a < b
  · simp [h, max_eq_right h.le]
  · simp [h, max_eq_left (not_lt.mp h)]

theorem truncQ_intCast (z : Int) : truncQ (z : ℚ) = z := by
  unfold truncQ
  split <;> simp

theorem truncQ_of_nonneg {q : ℚ} {z : Int} (h1 : (z : ℚ) ≤ q) (h2 : q < z + 1) (h0 : 0 ≤ q) :
    truncQ q = z := by
  unfold truncQ
  rw [if_pos h0, Int.floor_eq_iff]
  exact ⟨h1, h2⟩

theorem truncQ_of_nonpos {q : ℚ} {z : Int} (h1 : (z : ℚ) - 1 < q) (h2 : q ≤ z) (h0 : q ≤ 0) :
    truncQ q = z := by
  unfold truncQ
  split
  · have hq : q = 0 := le_antisymm h0 ‹0 ≤ q›
    subst hq
    have hz : z < 1 := by exact_mod_cast (by linarith : (z : ℚ) < 1)
    have hz0 : 0 ≤ z := by exact_mod_cast h2
    have : z = 0 := by omega
    subst this
    simp
  · rw [Int.ceil_eq_iff]
    exact ⟨h1, h2⟩

/-- Truncation is monotone. -/
theorem truncQ_mono {a b : ℚ} (h : a ≤ b) : truncQ a ≤ truncQ b := by
  unfold truncQ
  split <;> split
  · exact Int.floor_mono h
  · linarith
  · exact le_trans (Int.ceil_le.mpr (by push_cast; linarith)) (Int.floor_nonneg.mpr ‹0 ≤ b›)
  · exact Int.ceil_mono h

theorem truncQ_nonneg {q : ℚ} (h : 0 ≤ q) : 0 ≤ truncQ q := by
  have := truncQ_mono h
  rwa [show truncQ 0 = 0 by simpa using truncQ_intCast 0] at this

theorem truncQ_nonpos {q : ℚ} (h : q ≤ 0) : truncQ q ≤ 0 := by
  have := truncQ_mono h
  rwa [show truncQ 0 = 0 by simpa using truncQ_intCast 0] at this

/-- The clamp `std::max(lo, std::min(hi, x))` lands in `[lo, hi]` for every float `x`,
the special values included. -/
theorem Flt.clamp_within {lo hi : ℚ} (h : lo ≤ hi) (x : Flt) :
    (Flt.fmax (Flt.fin lo) (Flt.fmin (Flt.fin hi) x)).within lo hi := by
  cases x with
  | fin q =>
    rw [Flt.fmin_fin_fin, Flt.fmax_fin_fin]
    exact ⟨_, rfl, le_max_left _ _, max_le h (min_le_left _ _)⟩
  | pinf =>
    have e : Flt.fmin (Flt.fin hi) Flt.pinf = Flt.fin hi := rfl
    rw [e, Flt.fmax_fin_fin]
    exact ⟨_, rfl, le_max_left _ _, max_le h le_rfl⟩
  | ninf =>
    have e : Flt.fmax (Flt.fin lo) (Flt.fmin (Flt.fin hi) Flt.ninf) = Flt.fin lo := rfl
    rw [e]
    exact ⟨_, rfl, le_rfl, h⟩
  | nan =>
    have e : Flt.fmin (Flt.fin hi) Flt.nan = Flt.fin hi := rfl
    rw [e, Flt.fmax_fin_fin]
    exact ⟨_, rfl, le_max_left _ _, max_le h le_rfl⟩

theorem truncQ_ofNat (n : Nat) [n.AtLeastTwo] :
    truncQ (no_index (OfNat.ofNat n : ℚ)) = OfNat.ofNat n := by
  have := truncQ_intCast (OfNat.ofNat n : Int)
  simpa using this

theorem truncQ_zero : truncQ 0 = 0 := by simpa using truncQ_intCast 0

theorem truncQ_one : truncQ 1 = 1 := by simpa using truncQ_intCast 1

theorem truncQ_neg_ofNat (n : Nat) [n.AtLeastTwo] :
    truncQ (-(no_index (OfNat.ofNat n : ℚ))) = -(OfNat.ofNat n) := by
  have := truncQ_intCast (-(OfNat.ofNat n : Int))
  simpa using this

/-! ## Rounding to single precision -/

theorem le_roundEven (n : Int) (q : ℚ) (h : (n : ℚ) ≤ q) : n ≤ roundEven q := by
  have hf : n ≤ ⌊q⌋ := Int.le_floor.mpr h
  unfold roundEven
  split_ifs <;> omega

theorem roundEven_le (n : Int) (q : ℚ) (h : q ≤ (n : ℚ)) : roundEven q ≤ n := by
  have hf : ⌊q⌋ ≤ n := Int.floor_le_floor h |>.trans (by simp)
  by_cases hq : q = ⌊q⌋
  · unfold roundEven
    rw [if_pos (by rw [← hq]; norm_num)]
    exact hf
  · have hlt : (⌊q⌋ : ℚ) < n := lt_of_lt_of_le (lt_of_le_of_ne (Int.floor_le q) (Ne.symm hq)) h
    have hlt' : ⌊q⌋ < n := by exact_mod_cast hlt
    unfold roundEven
    split_ifs <;> omega

theorem roundEven_intCast (n : Int) : roundEven (n : ℚ) = n :=
  le_antisymm (roundEven_le n _ le_rfl) (le_roundEven n _ le_rfl)

theorem roundEven_eq_of_abs_lt (n : Int) (q : ℚ) (h : |q - n| < 1 / 2) : roundEven q = n := by
  rw [abs_lt] at h
  have h1 := Int.floor_le q
  have h2 := Int.lt_floor_add_one q
  have hf : ⌊q⌋ = n ∨ ⌊q⌋ = n - 1 := by
    have a : (⌊q⌋ : ℚ) < n + 1 := by linarith [h.2]
    have b : ((n : ℚ) - 2) < ⌊q⌋ := by linarith [h.1]
    have a' : ⌊q⌋ < n + 1 := by exact_mod_cast a
    have b' : n - 2 < ⌊q⌋ := by exact_mod_cast b
    omega
  unfold roundEven
  rcases hf with hf | hf
  · rw [hf, if_pos (by linarith [h.2])]
  · rw [hf]
    push_cast
    rw [if_neg (by linarith [h.1]), if_pos (by linarith [h.1])]
    ring

theorem log2Fuel_eq (fuel n : Nat) (h : n ≤ fuel) : log2Fuel fuel n = Nat.log 2 n := by
  induction fuel generalizing n with
  | zero =>
    have h0 : n = 0 := by omega
    subst h0
    simp [log2Fuel]
  | succ k ih =>
    unfold log2Fuel
    split
    · rename_i hlt
      rw [Nat.log_of_lt hlt]
    · rename_i hge
      rw [ih (n / 2) (by omega)]
      exact (Nat.log_of_one_lt_of_le (by norm_num) (show 2 ≤ n by omega)).symm

theorem clog2Fuel_eq (fuel n : Nat) (h : n ≤ fuel) : clog2Fuel fuel n = Nat.clog 2 n := by
  induction fuel generalizing n with
  | zero =>
    have h0 : n = 0 := by omega
    subst h0
    simp [clog2Fuel]
  | succ k ih =>
    unfold clog2Fuel
    split
    · rename_i hlt
      rw [Nat.clog_of_right_le_one (by omega)]
    · rename_i hge
      rw [ih ((n + 1) / 2) (by omega)]
      exact (Nat.clog_of_two_le (by norm_num) (show 2 ≤ n by omega)).symm

/-- The exponent computed by halving is the integer logarithm. -/
theorem ilog2_eq (r : ℚ) : ilog2 r = Int.log 2 r := by
  unfold ilog2 Int.log
  rw [log2Fuel_eq _ _ le_rfl, clog2Fuel_eq _ _ le_rfl]

theorem binade_eq_of (q : ℚ) (e : Int) (he : -126 ≤ e) (h1 : (2 : ℚ) ^ e ≤ |q|)
    (h2 : |q| < (2 : ℚ) ^ (e + 1)) : binade q = e := by
  have hpos : (0 : ℚ) < |q| := lt_of_lt_of_le (by positivity) h1
  have a : e ≤ Int.log 2 |q| := by
    rw [← Int.zpow_le_iff_le_log (by norm_num) hpos]
    simpa using h1
  have b : Int.log 2 |q| < e + 1 := by
    rw [← Int.lt_zpow_iff_log_lt (by norm_num) hpos]
    simpa using h2
  have hq : q ≠ 0 := abs_pos.mp hpos
  unfold binade
  rw [if_neg hq, ilog2_eq]
  omega

theorem binade_le_of_abs_lt (q : ℚ) (k : Int) (hk : -126 ≤ k) (h : |q| < (2 : ℚ) ^ (k + 1)) :
    binade q ≤ k := by
  unfold binade
  split
  · exact hk
  · rename_i hq
    have hpos : (0 : ℚ) < |q| := abs_pos.mpr hq
    apply max_le _ hk
    rw [ilog2_eq]
    have b : Int.log 2 |q| < k + 1 := by
      rw [← Int.lt_zpow_iff_log_lt (by norm_num) hpos]
      simpa using h
    omega

theorem neg126_le_binade (q : ℚ) : -126 ≤ binade q := by
  unfold binade
  split
  · exact le_rfl
  · exact le_max_right _ _

/-- Rounding keeps a bound that is a multiple of the spacing at `q`. -/
theorem f32_le_of_le (q : ℚ) (m j : Int) (hj : binade q - 23 ≤ j) (h : q ≤ (m : ℚ) * 2 ^ j) :
    f32 q ≤ (m : ℚ) * 2 ^ j := by
  have hu : (0 : ℚ) < 2 ^ (binade q - 23) := by positivity
  obtain ⟨k, hk⟩ : ∃ k : Nat, j = binade q - 23 + k := ⟨(j - (binade q - 23)).toNat, by omega⟩
  have hb : (m : ℚ) * 2 ^ j = ((m * 2 ^ k : Int) : ℚ) * 2 ^ (binade q - 23) := by
    rw [hk, zpow_add₀ (by norm_num : (2 : ℚ) ≠ 0)]
    push_cast
    rw [zpow_natCast]
    ring
  rw [hb] at h ⊢
  unfold f32
  apply mul_le_mul_of_nonneg_right _ hu.le
  have : roundEven (q / 2 ^ (binade q - 23)) ≤ m * 2 ^ k :=
    roundEven_le _ _ (by rw [div_le_iff₀ hu]; exact h)
  exact_mod_cast this

theorem le_f32_of_le (q : ℚ) (m j : Int) (hj : binade q - 23 ≤ j) (h : (m : ℚ) * 2 ^ j ≤ q) :
    (m : ℚ) * 2 ^ j ≤ f32 q := by
  have hu : (0 : ℚ) < 2 ^ (binade q - 23) := by positivity
  obtain ⟨k, hk⟩ : ∃ k : Nat, j = binade q - 23 + k := ⟨(j - (binade q - 23)).toNat, by omega⟩
  have hb : (m : ℚ) * 2 ^ j = ((m * 2 ^ k : Int) : ℚ) * 2 ^ (binade q - 23) := by
    rw [hk, zpow_add₀ (by norm_num : (2 : ℚ) ≠ 0)]
    push_cast
    rw [zpow_natCast]
    ring
  rw [hb] at h ⊢
  unfold f32
  apply mul_le_mul_of_nonneg_right _ hu.le
  have : m * 2 ^ k ≤ roundEven (q / 2 ^ (binade q - 23)) :=
    le_roundEven _ _ (by rw [le_div_iff₀ hu]; exact h)
  exact_mod_cast this


theorem binade_sub_le_of_abs_lt (q : ℚ) (k : Int) (hk : -126 ≤ k)
    (h : |q| < (2 : ℚ) ^ (k + 1)) : binade q - 23 ≤ k - 23 := by
  have := binade_le_of_abs_lt q k hk h
  omega

/-- A value with a significand of at most 24 bits and an exponent in the binary32 range
is not changed by the rounding. -/
theorem f32_eq_self (m j : Int) (hm : |m| < 2 ^ 24) (hj : -149 ≤ j) :
    f32 ((m : ℚ) * 2 ^ j) = (m : ℚ) * 2 ^ j := by
  have hq : |(m : ℚ) * 2 ^ j| < (2 : ℚ) ^ (j + 23 + 1) := by
    rw [abs_mul, abs_of_pos (by positivity : (0 : ℚ) < 2 ^ j),
      show j + 23 + 1 = 24 + j by ring, zpow_add₀ (by norm_num : (2 : ℚ) ≠ 0)]
    apply mul_lt_mul_of_pos_right _ (by positivity)
    have : ((|m| : Int) : ℚ) < ((2 ^ 24 : Int) : ℚ) := by exact_mod_cast hm
    push_cast at this
    have e : (2 : ℚ) ^ (24 : Int) = 2 ^ (24 : Nat) := by norm_num
    rw [e]
    exact this
  have hb : binade ((m : ℚ) * 2 ^ j) - 23 ≤ j := by
    have := binade_le_of_abs_lt _ (j + 23) (by omega) hq
    omega
  exact le_antisymm (f32_le_of_le _ m j hb le_rfl) (le_f32_of_le _ m j hb le_rfl)

theorem f32_intCast (m : Int) (hm : |m| < 2 ^ 24) : f32 (m : ℚ) = m := by
  have := f32_eq_self m 0 hm (by norm_num)
  simpa using this

/-- The rounding of a value of magnitude below `2^24` keeps integer bounds. -/
theorem f32_le_intCast (q : ℚ) (b : Int) (hq : |q| < 2 ^ 24) (h : q ≤ b) : f32 q ≤ b := by
  have hb : binade q - 23 ≤ 0 := by
    have := binade_le_of_abs_lt q 23 (by norm_num) (by
      have e : (2 : ℚ) ^ ((23 : Int) + 1) = 2 ^ (24 : Nat) := by norm_num
      rw [e]
      exact hq)
    omega
  have := f32_le_of_le q b 0 hb (by simpa using h)
  simpa using this

/-- The rounding keeps a bound on the magnitude that is a power of two. -/
theorem abs_f32_le (q : ℚ) (k : Int) (hk : -126 ≤ k) (h : |q| ≤ (2 : ℚ) ^ k) :
    |f32 q| ≤ (2 : ℚ) ^ k := by
  have hlt : |q| < (2 : ℚ) ^ (k + 1) :=
    lt_of_le_of_lt h (zpow_lt_zpow_right₀ (by norm_num) (by omega))
  have hb : binade q - 23 ≤ k := by
    have := binade_le_of_abs_lt q k hk hlt
    omega
  rw [abs_le] at h ⊢
  constructor
  · have := le_f32_of_le q (-1) k hb (by push_cast; linarith [h.1])
    push_cast at this
    linarith
  · have := f32_le_of_le q 1 k hb (by push_cast; linarith [h.2])
    push_cast at this
    linarith

/-- The value of `f32` at a given rational, from its exponent and its rounded significand. -/
theorem f32_eq_of (q : ℚ) (e n : Int) (he : -126 ≤ e) (h1 : (2 : ℚ) ^ e ≤ |q|)
    (h2 : |q| < (2 : ℚ) ^ (e + 1)) (hn : |q / 2 ^ (e - 23) - n| < 1 / 2) :
    f32 q = (n : ℚ) * 2 ^ (e - 23) := by
  unfold f32
  rw [binade_eq_of q e he h1 h2, roundEven_eq_of_abs_lt n _ hn]

theorem Flt.rnd_fin (q : ℚ) (h : |f32 q| < (2 : ℚ) ^ (128 : Nat)) :
    Flt.rnd (Flt.fin q) = Flt.fin (f32 q) := by
  show (if (2 : ℚ) ^ (128 : Nat) ≤ |f32 q| then Flt.signedInf q else Flt.fin (f32 q)) = _
  rw [if_neg (not_le.mpr h)]

theorem Flt.rnd_fin_of_abs_le (q : ℚ) (k : Int) (hk : -126 ≤ k) (hk' : k ≤ 127)
    (h : |q| ≤ (2 : ℚ) ^ k) : Flt.rnd (Flt.fin q) = Flt.fin (f32 q) := by
  apply Flt.rnd_fin
  refine lt_of_le_of_lt (abs_f32_le q k hk h) ?_
  have : (2 : ℚ) ^ k ≤ (2 : ℚ) ^ (127 : Int) := zpow_le_zpow_right₀ (by norm_num) hk'
  refine lt_of_le_of_lt this ?_
  norm_num

theorem f32_lit_0_001 : f32 0.001 = 8589935 / 8589934592 := by
  rw [f32_eq_of 0.001 (-10) 8589935 (by norm_num) (by norm_num [abs_of_pos])
    (by norm_num [abs_of_pos]) (by norm_num [abs_lt])]
  norm_num

theorem f32_lit_0_8 : f32 0.8 = 13421773 / 16777216 := by
  rw [f32_eq_of 0.8 (-1) 13421773 (by norm_num) (by norm_num [abs_of_pos])
    (by norm_num [abs_of_pos]) (by norm_num [abs_lt])]
  norm_num

theorem f32_lit_1_2 : f32 1.2 = 10066330 / 8388608 := by
  rw [f32_eq_of 1.2 0 10066330 (by norm_num) (by norm_num [abs_of_pos])
    (by norm_num [abs_of_pos]) (by norm_num [abs_lt])]
  norm_num

theorem Flt.lit_0_001 : Flt.lit 0.001 = Flt.fin (8589935 / 8589934592) := by
  unfold Flt.lit
  rw [Flt.rnd_fin _ (by rw [f32_lit_0_001]; norm_num [abs_of_pos]), f32_lit_0_001]

theorem Flt.lit_0_8 : Flt.lit 0.8 = Flt.fin (13421773 / 16777216) := by
  unfold Flt.lit
  rw [Flt.rnd_fin _ (by rw [f32_lit_0_8]; norm_num [abs_of_pos]), f32_lit_0_8]

theorem Flt.lit_1_2 : Flt.lit 1.2 = Flt.fin (10066330 / 8388608) := by
  unfold Flt.lit
  rw [Flt.rnd_fin _ (by rw [f32_lit_1_2]; norm_num [abs_of_pos]), f32_lit_1_2]

theorem Flt.lit_intCast (m : Int) (hm : |m| < 2 ^ 24) : Flt.lit (m : ℚ) = Flt.fin m := by
  unfold Flt.lit
  have h := f32_intCast m hm
  rw [Flt.rnd_fin _ (by
    rw [h]
    have : ((|m| : Int) : ℚ) < ((2 ^ 24 : Int) : ℚ) := by exact_mod_cast hm
    push_cast at this
    linarith), h]

theorem Flt.lit_10 : Flt.lit 10 = Flt.fin 10 := by
  have := Flt.lit_intCast 10 (by norm_num)
  simpa using this

/-! ## The viewport offset -/

theorem clampOffset_eq (cfg : Config) (samples offset : Int) :
    clampOffset cfg samples offset = max (-(cfg.SIZE - samples)) (min 0 offset) := by
  unfold clampOffset
  simp only []
  split
  · rw [max_eq_left (by omega)]; omega
  · rw [max_eq_right (by omega)]

/-- C1 (amended): whenever the visible sample count `v` (the truncated
`sampleCount(screenWidth(), scaleWidth())`) is defined and does not exceed the capacity
`SampleBuffer::SIZE`, `setOffset(r)` changes `channelOffset` only and stores `r` clamped
into `[-(SIZE - v), 0]`: the stored value lies in the interval, a request inside the
interval is stored unchanged, a positive request gives `0` and a request below the
interval gives `-(SIZE - v)`. -/
theorem setOffset_clamps (cfg : Config) (s : AudioView) (r v : Int)
    (hv : visibleSamples cfg s = some v) (hcap : v ≤ cfg.SIZE) :
    ∃ s' e, setOffset cfg s r = some (s', e) ∧
      s' = { s with channelOffset := s'.channelOffset } ∧
      -(cfg.SIZE - v) ≤ s'.channelOffset ∧ s'.channelOffset ≤ 0 ∧
      (-(cfg.SIZE - v) ≤ r → r ≤ 0 → s'.channelOffset = r) ∧
      (0 < r → s'.channelOffset = 0) ∧
      (r < -(cfg.SIZE - v) → s'.channelOffset = -(cfg.SIZE - v)) := by
  simp only [setOffset, hv, Option.map_some']
  refine ⟨_, _, rfl, rfl, ?_⟩
  · simp only [clampOffset_eq]
    refine ⟨le_max_left _ _, max_le (by omega) (min_le_left _ _), ?_, ?_, ?_⟩
    · intro h1 h2
      rw [min_eq_right h2, max_eq_right h1]
    · intro h
      rw [min_eq_left h.le, max_eq_right (by omega)]
    · intro h
      rw [max_eq_left (le_trans (min_le_right _ _) h.le)]

theorem visibleSamples_freshView : visibleSamples scenarioConfig freshView = some 19100 := by
  norm_num [visibleSamples, sampleCount, scaleWidth, screenWidth, freshView, AudioView.init,
    scenarioConfig, Flt.ofInt, Flt.fin_div_fin, truncQ_ofNat]

theorem visibleSamples_zoomedOutView :
    visibleSamples scenarioConfig zoomedOutView = some 382000 := by
  norm_num [visibleSamples, sampleCount, scaleWidth, screenWidth, zoomedOutView, freshView,
    AudioView.init, scenarioConfig, Flt.ofInt, Flt.fin_div_fin, truncQ_ofNat]

/-- C1, witness: the spec's scenario (capacity 100000, sample rate 10000, time scale 0.1).
In a 1000 pixel wide view 19100 samples are visible, so the request `-50000` is accepted
unclamped. -/
theorem setOffset_clamps_witness :
    visibleSamples scenarioConfig freshView = some 19100 ∧
    (19100 : Int) ≤ scenarioConfig.SIZE ∧
    ∃ s' e, setOffset scenarioConfig freshView (-50000) = some (s', e) ∧
      s' = { freshView with channelOffset := s'.channelOffset } ∧
      -(scenarioConfig.SIZE - 19100) ≤ s'.channelOffset ∧ s'.channelOffset ≤ 0 ∧
      (-(scenarioConfig.SIZE - 19100) ≤ -50000 → (-50000 : Int) ≤ 0 →
        s'.channelOffset = -50000) ∧
      ((0 : Int) < -50000 → s'.channelOffset = 0) ∧
      (-50000 < -(scenarioConfig.SIZE - 19100) →
        s'.channelOffset = -(scenarioConfig.SIZE - 19100)) :=
  ⟨visibleSamples_freshView, by decide,
    setOffset_clamps scenarioConfig freshView (-50000) 19100 visibleSamples_freshView
      (by decide)⟩

/-- C1, counterexample: with the capacity 100000 and the sample rate 10000 of the spec's
scenario, at the time scale 2.0 a 1000 pixel wide view shows 382000 samples, more than
the capacity.  The positive request `5` is then stored as `282000`, which is neither `0`
nor inside `[-(SIZE - 382000), 0]`. -/
theorem setOffset_positive_when_window_exceeds_capacity :
    visibleSamples scenarioConfig zoomedOutView = some 382000 ∧
    (setOffset scenarioConfig zoomedOutView 5).map (fun p => p.1.channelOffset)
      = some 282000 ∧
    ¬ ((282000 : Int) ≤ 0) := by
  refine ⟨visibleSamples_zoomedOutView, ?_, by decide⟩
  rw [setOffset, visibleSamples_zoomedOutView]
  simp only [Option.map_some', clampOffset, scenarioConfig]
  decide

/-! ## The assertion that ends a press -/

theorem mousePressEventAsserted_eq (cfg : Config) (s s' : AudioView) (button : MouseButton)
    (x y : Int) (h : mousePressEvent cfg s button x y = some s') (ha : activeDrags s' ≤ 1) :
    mousePressEventAsserted cfg s button x y = some s' := by
  simp only [mousePressEventAsserted, h, Option.some_bind, if_pos ha]

theorem mousePressEventAsserted_aborts (cfg : Config) (s s' : AudioView) (button : MouseButton)
    (x y : Int) (h : mousePressEvent cfg s button x y = some s') (ha : ¬ activeDrags s' ≤ 1) :
    mousePressEventAsserted cfg s button x y = none := by
  simp only [mousePressEventAsserted, h, Option.some_bind, if_neg ha]

/-! ## Exclusivity of the drags -/

/-- C2 (code bug): the assertion `(clickedGain != -1) + (clickedSlider != -1) +
clickedThresh <= 1` that ends `mousePressEvent` fails in reachable states.  A second left
press without a release in between starts a gain drag while the slider drag is active;
and in a view narrower than three pin sizes one press in threshold mode starts the slider
drag and the threshold drag together. -/
theorem two_drags_active_at_once :
    (∃ s, run scenarioConfig (AudioView.init 1000 400 (Flt.fin 1)) doublePressCalls = some s ∧
      s.clickedSlider = 0 ∧ s.clickedGain = 0 ∧ s.clickedThresh = false ∧
      activeDrags s = 2) ∧
    (∃ s, run scenarioConfig (AudioView.init 60 100 (Flt.fin 1)) narrowPressCalls = some s ∧
      s.clickedSlider = 0 ∧ s.clickedGain = -1 ∧ s.clickedThresh = true ∧
      activeDrags s = 2) := by
  constructor
  · norm_num [doublePressCalls, run, step, updateView, AudioView.init, newView,
      mousePressEvent, pressSliderOrGain, pressThresh, determineSliderHover, sliderScan,
      gainScan, scenarioConfig, Flt.ofInt, truncQ_ofNat, truncQ_zero, activeDrags, List.range']
  · norm_num [narrowPressCalls, run, step, updateView, AudioView.init, newView,
      mousePressEvent, pressSliderOrGain, pressThresh, determineSliderHover, sliderScan,
      determineThreshHover, thresholdPos, viewAt, toggleThreshMode, Flt.fmax_fin_fin,
      gainScan, scenarioConfig, Flt.ofInt, truncQ_ofNat, truncQ_zero, activeDrags, List.range']

/-! ## Zoom -/

/-- The time scale after a wheel step: `std::max(1.f/SAMPLE_RATE, timeScale*0.8f)` on
wheel-up and `std::min(2.f, timeScale*1.2f)` on wheel-down, for a finite time scale. -/
theorem zoomed_timeScale (cfg : Config) (up : Bool) (ts : ℚ) (hSR : 0 < cfg.SAMPLE_RATE) :
    (if up then Flt.fmax (Flt.fin 1 / Flt.ofInt cfg.SAMPLE_RATE) (Flt.fin ts * Flt.fin 0.8)
      else Flt.fmin (Flt.fin 2) (Flt.fin ts * Flt.fin 1.2))
    = Flt.fin (zoomedScale cfg up ts) := by
  have hne : (cfg.SAMPLE_RATE : ℚ) ≠ 0 := by
    have : (0 : ℚ) < cfg.SAMPLE_RATE := by exact_mod_cast hSR
    exact ne_of_gt this
  cases up
  · simp [zoomedScale, Flt.fmin_fin_fin]
  · simp [zoomedScale, Flt.ofInt, Flt.fin_div_fin_of_ne _ hne, Flt.fmax_fin_fin]

/-- The zoomed time scale stays in `[1/SAMPLE_RATE, 2]`. -/
theorem zoomed_timeScale_range (cfg : Config) (up : Bool) (ts : ℚ) (hSR : 0 < cfg.SAMPLE_RATE)
    (hlo : 1 / (cfg.SAMPLE_RATE : ℚ) ≤ ts) (hhi : ts ≤ 2) :
    1 / (cfg.SAMPLE_RATE : ℚ) ≤
        zoomedScale cfg up ts ∧
      zoomedScale cfg up ts ≤ 2 := by
  have hpos : (0 : ℚ) < 1 / (cfg.SAMPLE_RATE : ℚ) := by
    have : (0 : ℚ) < cfg.SAMPLE_RATE := by exact_mod_cast hSR
    positivity
  cases up
  · simp only [zoomedScale, Bool.false_eq_true, if_false]
    refine ⟨le_min (by linarith) (by linarith), min_le_left _ _⟩
  · simp only [zoomedScale, if_true]
    refine ⟨le_max_left _ _, max_le (by linarith) (by linarith)⟩

/-- The visible sample count is defined as soon as the time scale is finite and non-zero
and the widget has a non-zero width. -/
theorem visibleSamples_of_fin (cfg : Config) (s : AudioView) (ts : ℚ)
    (hts : s.timeScale = Flt.fin ts) (hts0 : ts ≠ 0) (hw : s.width ≠ 0) :
    visibleSamples cfg s = some (truncQ
      ((screenWidth cfg s : ℚ) * (cfg.SAMPLE_RATE : ℚ) / (0.05 * (s.width : ℚ) / ts))) := by
  have hw' : (s.width : ℚ) ≠ 0 := by exact_mod_cast hw
  have hsc : (0.05 * (s.width : ℚ) / ts) ≠ 0 := by
    apply div_ne_zero _ hts0
    exact mul_ne_zero (by norm_num) hw'
  simp only [visibleSamples, sampleCount, scaleWidth, hts, Flt.ofInt, Flt.fin_mul_fin,
    Flt.fin_div_fin_of_ne _ hts0, Flt.fin_div_fin_of_ne _ hsc, Flt.toInt_fin]

/-- The time-base branch of a wheel event: the time scale takes its zoomed value and the
offset is clamped again with the new visible sample count `v`. -/
theorem pressWheel_timebase (cfg : Config) (s : AudioView) (up : Bool) (x y : Int) (ts : ℚ)
    (hSR : 0 < cfg.SAMPLE_RATE) (hw : s.width ≠ 0) (hts : s.timeScale = Flt.fin ts)
    (hlo : 1 / (cfg.SAMPLE_RATE : ℚ) ≤ ts)
    (hx : ¬ x < Int.tdiv (cfg.MOVEPIN_SIZE * 3) 2)
    (hcol : s.threshMode = false ∨ x < s.width - Int.tdiv (cfg.MOVEPIN_SIZE * 3) 2) :
    ∃ v, visibleSamples cfg { s with timeScale := Flt.fin (zoomedScale cfg up ts) }
        = some v ∧
      pressWheel cfg s up x y = some { s with
        timeScale := Flt.fin (zoomedScale cfg up ts),
        channelOffset := max (-(cfg.SIZE - v)) (min 0 s.channelOffset) } := by
  have hpos : (0 : ℚ) < 1 / (cfg.SAMPLE_RATE : ℚ) := by
    have : (0 : ℚ) < cfg.SAMPLE_RATE := by exact_mod_cast hSR
    positivity
  have hts' : zoomedScale cfg up ts ≠ 0 := by
    apply ne_of_gt
    cases up
    · simp only [zoomedScale, Bool.false_eq_true, if_false]
      exact lt_min (by norm_num) (by linarith)
    · simp only [zoomedScale, if_true]
      exact lt_of_lt_of_le hpos (le_max_left _ _)
  have hv := visibleSamples_of_fin cfg
    { s with timeScale := Flt.fin (zoomedScale cfg up ts) } _ rfl hts' hw
  refine ⟨_, hv, ?_⟩
  unfold pressWheel
  rw [if_neg hx, if_pos hcol, hts, zoomed_timeScale cfg up ts hSR]
  simp only [setOffset, hv, Option.map_some', clampOffset_eq]

/-- C3 (amended): for a positive sample rate and a non-zero widget width, a wheel-up or
wheel-down event that reaches the time-base branch, applied to a state whose time scale
`ts` lies in `[1/SAMPLE_RATE, 2.0]`, is defined; the new time scale is
`max(1/SAMPLE_RATE, 0.8*ts)` respectively `min(2.0, 1.2*ts)` and lies in
`[1/SAMPLE_RATE, 2.0]`; the new `channelOffset` is at least `-(SIZE - v)`, and at most `0`
provided `v <= SIZE`, where `v` is the visible sample count at the new time scale. -/
theorem zoom_keeps_timeScale_and_offset (cfg : Config) (s : AudioView) (up : Bool)
    (x y : Int) (ts : ℚ)
    (hSR : 0 < cfg.SAMPLE_RATE) (hw : s.width ≠ 0) (hts : s.timeScale = Flt.fin ts)
    (hlo : 1 / (cfg.SAMPLE_RATE : ℚ) ≤ ts) (hhi : ts ≤ 2)
    (hx : ¬ x < Int.tdiv (cfg.MOVEPIN_SIZE * 3) 2)
    (hcol : s.threshMode = false ∨ x < s.width - Int.tdiv (cfg.MOVEPIN_SIZE * 3) 2) :
    ∃ s' v,
      mousePressEvent cfg s
        (if up then MouseButton.WheelUpButton else MouseButton.WheelDownButton) x y = some s' ∧
      s'.timeScale = Flt.fin (zoomedScale cfg up ts) ∧
      1 / (cfg.SAMPLE_RATE : ℚ) ≤ zoomedScale cfg up ts ∧ zoomedScale cfg up ts ≤ 2 ∧
      visibleSamples cfg s' = some v ∧
      -(cfg.SIZE - v) ≤ s'.channelOffset ∧ (v ≤ cfg.SIZE → s'.channelOffset ≤ 0) := by
  obtain ⟨v, hv, hp⟩ := pressWheel_timebase cfg s up x y ts hSR hw hts hlo hx hcol
  obtain ⟨h1, h2⟩ := zoomed_timeScale_range cfg up ts hSR hlo hhi
  refine ⟨{ s with timeScale := Flt.fin (zoomedScale cfg up ts),
                      channelOffset := max (-(cfg.SIZE - v)) (min 0 s.channelOffset) },
    v, ?_, rfl, h1, h2, hv, le_max_left _ _, ?_⟩
  · cases up
    · simpa [mousePressEvent] using hp
    · simpa [mousePressEvent] using hp
  · intro hcap
    exact max_le (by omega) (min_le_left _ _)

/-- C3, witness: a wheel-down at the centre of the fresh 1000 pixel wide view, with the
constants of the spec's scenario. -/
theorem zoom_keeps_timeScale_and_offset_witness :
    ∃ s' v,
      mousePressEvent scenarioConfig freshView
        (if false then MouseButton.WheelUpButton else MouseButton.WheelDownButton) 500 200
        = some s' ∧
      s'.timeScale = Flt.fin (zoomedScale scenarioConfig false 0.1) ∧
      1 / (scenarioConfig.SAMPLE_RATE : ℚ) ≤ zoomedScale scenarioConfig false 0.1 ∧
      zoomedScale scenarioConfig false 0.1 ≤ 2 ∧
      visibleSamples scenarioConfig s' = some v ∧
      -(scenarioConfig.SIZE - v) ≤ s'.channelOffset ∧
      (v ≤ scenarioConfig.SIZE → s'.channelOffset ≤ 0) :=
  zoom_keeps_timeScale_and_offset scenarioConfig freshView false 500 200 0.1
    (by decide) (by decide) rfl (by norm_num [scenarioConfig]) (by norm_num)
    (by decide) (Or.inl rfl)

/-- In a view of width zero `scaleWidth()` is zero, `sampleCount` is infinite and its
conversion to `int` is undefined. -/
theorem zero_width_wheel_undefined :
    mousePressEvent scenarioConfig zeroWidthView MouseButton.WheelDownButton 500 200 = none := by
  have ht : Int.tdiv 90 2 = 45 := by decide
  norm_num [mousePressEvent, pressWheel, setOffset, clampOffset, visibleSamples, sampleCount,
    scaleWidth, screenWidth, zeroWidthView, AudioView.init, scenarioConfig,
    Flt.ofInt, Flt.fin_div_fin, Flt.fmin_fin_fin, Flt.signedInf, Flt.toInt, truncQ_neg_ofNat,
    ht]

theorem visibleSamples_after_wheelDown_halfSecondView :
    visibleSamples scenarioConfig
      { halfSecondView with timeScale := Flt.fin 0.6, channelOffset := 14600 } = some 114600 := by
  norm_num [visibleSamples, sampleCount, scaleWidth, screenWidth, halfSecondView, freshView,
    AudioView.init, scenarioConfig, Flt.ofInt, Flt.fin_div_fin, truncQ_ofNat]

theorem wheelDown_halfSecondView :
    mousePressEvent scenarioConfig halfSecondView MouseButton.WheelDownButton 500 200
      = some { halfSecondView with timeScale := Flt.fin 0.6, channelOffset := 14600 } := by
  have ht : Int.tdiv 90 2 = 45 := by decide
  norm_num [mousePressEvent, pressWheel, setOffset, clampOffset, visibleSamples, sampleCount,
    scaleWidth, screenWidth, halfSecondView, freshView, AudioView.init, scenarioConfig,
    Flt.ofInt, Flt.fin_div_fin, Flt.fmin_fin_fin, truncQ_ofNat, ht]

/-- C3, counterexample: with the capacity 100000 and the sample rate 10000 of the spec's
scenario, a wheel-down in a 1000 pixel wide view at time scale 0.5 and offset 0 gives the
time scale 0.6, at which 114600 samples are visible; the offset becomes 14600, above 0.
And in a view of width zero the event is undefined. -/
theorem zoom_out_makes_offset_positive :
    mousePressEvent scenarioConfig halfSecondView MouseButton.WheelDownButton 500 200
      = some { halfSecondView with timeScale := Flt.fin 0.6, channelOffset := 14600 } ∧
    visibleSamples scenarioConfig
      { halfSecondView with timeScale := Flt.fin 0.6, channelOffset := 14600 } = some 114600 ∧
    ¬ ((14600 : Int) ≤ 0) ∧
    mousePressEvent scenarioConfig zeroWidthView MouseButton.WheelDownButton 500 200 = none :=
  ⟨wheelDown_halfSecondView, visibleSamples_after_wheelDown_halfSecondView, by decide,
    zero_width_wheel_undefined⟩

/-! ## Dragging a position pin -/

/-- C4 (code bug): `mouseMotionEvent` adds the anchor `clickedPixelOffset = y0 - h*pos`
where it has to subtract it.  With one default channel in a view 400 pixels high (pin
centre at `y = 160`): a press on the centre followed by a motion 100 pixels lower moves
the channel from 0.4 to 0.65, as the claim says; a press 10 pixels below the centre
followed by a motion 100 pixels lower gives 0.7 instead of 0.65; and a motion event at
the very point of that press gives 0.45 instead of 0.4. -/
theorem slider_drag_adds_anchor_twice :
    (∃ s, run scenarioConfig (AudioView.init 1000 400 (Flt.fin 1)) centreDragCalls = some s ∧
      s.views = [{ gain := Flt.fin 1, pos := Flt.fin 0.65, thresh := Flt.fin 0.1 }]) ∧
    (∃ s, run scenarioConfig (AudioView.init 1000 400 (Flt.fin 1)) offCentreDragCalls = some s ∧
      s.views = [{ gain := Flt.fin 1, pos := Flt.fin 0.7, thresh := Flt.fin 0.1 }]) ∧
    (∃ s, run scenarioConfig (AudioView.init 1000 400 (Flt.fin 1)) offCentreHoldCalls = some s ∧
      s.views = [{ gain := Flt.fin 1, pos := Flt.fin 0.45, thresh := Flt.fin 0.1 }]) ∧
    max (0.05 : ℚ) (min 0.95 (0.4 + 100 / 400)) = 0.65 := by
  refine ⟨?_, ?_, ?_, ?_⟩
  · norm_num [centreDragCalls, run, step, updateView, AudioView.init, newView,
      mousePressEvent, pressSliderOrGain, pressThresh, determineSliderHover, sliderScan,
      mouseMotionEvent, motionSlider, motionThresh, motionGain, viewAt, setViewAt,
      Flt.fin_div_fin, Flt.fmin_fin_fin, Flt.fmax_fin_fin,
      scenarioConfig, Flt.ofInt, truncQ_ofNat, truncQ_zero, List.range']
  · norm_num [offCentreDragCalls, run, step, updateView, AudioView.init, newView,
      mousePressEvent, pressSliderOrGain, pressThresh, determineSliderHover, sliderScan,
      mouseMotionEvent, motionSlider, motionThresh, motionGain, viewAt, setViewAt,
      Flt.fin_div_fin, Flt.fmin_fin_fin, Flt.fmax_fin_fin,
      scenarioConfig, Flt.ofInt, truncQ_ofNat, truncQ_zero, List.range']
  · norm_num [offCentreHoldCalls, run, step, updateView, AudioView.init, newView,
      mousePressEvent, pressSliderOrGain, pressThresh, determineSliderHover, sliderScan,
      mouseMotionEvent, motionSlider, motionThresh, motionGain, viewAt, setViewAt,
      Flt.fin_div_fin, Flt.fmin_fin_fin, Flt.fmax_fin_fin,
      scenarioConfig, Flt.ofInt, truncQ_ofNat, truncQ_zero, List.range']
  · norm_num

/-! ## Dragging the threshold pin -/

theorem viewAt_eq_some {views : List ChannelView} {i : Int} {v : ChannelView}
    (h : viewAt views i = some v) : 0 ≤ i ∧ i.toNat < views.length ∧ views[i.toNat]? = some v := by
  unfold viewAt at h
  split at h
  · refine ⟨‹0 ≤ i›, ?_, h⟩
    exact (List.getElem?_eq_some_iff.mp h).1
  · exact absurd h (by simp)

theorem setViewAt_of_viewAt {views : List ChannelView} {i : Int} {v : ChannelView}
    (h : viewAt views i = some v) (w : ChannelView) :
    setViewAt views i w = some (views.set i.toNat w) := by
  obtain ⟨h0, h1, _⟩ := viewAt_eq_some h
  unfold setViewAt
  rw [if_pos ⟨h0, h1⟩]

theorem viewAt_set_self {views : List ChannelView} {i : Int} {v : ChannelView}
    (h : viewAt views i = some v) (w : ChannelView) :
    viewAt (views.set i.toNat w) i = some w := by
  obtain ⟨h0, h1, _⟩ := viewAt_eq_some h
  unfold viewAt
  rw [if_pos h0]
  simp [h1]

/-- The threshold branch of a motion event, on finite values and a positive height: the
threshold becomes `(p - t)/g` for `t = min(p, max(PIN/h, (y - anchor)/h))`. -/
theorem motionThresh_fin (cfg : Config) (s : AudioView) (y : Int) (v : ChannelView) (g p : ℚ)
    (hthr : s.clickedThresh = true) (hv : viewAt s.views s.selectedChannel = some v)
    (hg : v.gain = Flt.fin g) (hg0 : g ≠ 0) (hp : v.pos = Flt.fin p) (hh : 0 < s.height) :
    motionThresh cfg s y = some { s with views := (s.views.set s.selectedChannel.toNat
      { v with thresh := Flt.fin ((p - min p (max ((cfg.MOVEPIN_SIZE : ℚ) / s.height)
          (((y - s.clickedPixelOffset : Int) : ℚ) / s.height))) / g) }) } := by
  have hh' : (s.height : ℚ) ≠ 0 := by
    have : (0 : ℚ) < s.height := by exact_mod_cast hh
    exact ne_of_gt this
  unfold motionThresh
  simp only [hthr, if_true, hv, Option.some_bind, hg, hp, Flt.ofInt,
    Flt.fin_div_fin_of_ne _ hh', Flt.fmax_fin_fin, Flt.fmin_fin_fin, Flt.fin_sub_fin,
    Flt.fin_div_fin_of_ne _ hg0, setViewAt_of_viewAt hv, Option.map_some']

/-- C5 (amended): let the threshold drag be active, let the selected channel exist and
have a finite non-zero gain `g` (in particular a gain in `[0.001, 10]`) and a finite
position `p`, let the pin size be non-negative, the view height `h` positive, and let the
channel line lie at least half a pin below the top, `MOVEPIN_SIZE/2 <= p*h`.  Then the
threshold branch of a motion event is defined and leaves `thresholdPos()` in
`[MOVEPIN_SIZE/2, p*h]`, for every pointer `y` and every anchor; when no other drag is
active, the state after that branch is the state after the whole motion event. -/
theorem threshold_drag_keeps_pin_in_range (cfg : Config) (s : AudioView) (y : Int)
    (v : ChannelView) (g p : ℚ)
    (hthr : s.clickedThresh = true)
    (hv : viewAt s.views s.selectedChannel = some v)
    (hg : v.gain = Flt.fin g) (hg0 : g ≠ 0) (hp : v.pos = Flt.fin p)
    (hpin : 0 ≤ cfg.MOVEPIN_SIZE) (hh : 0 < s.height)
    (hroom : (cfg.MOVEPIN_SIZE : ℚ) / 2 ≤ p * s.height) :
    ∃ s' tp, motionThresh cfg s y = some s' ∧ thresholdPos s' = some (Flt.fin tp) ∧
      (cfg.MOVEPIN_SIZE : ℚ) / 2 ≤ tp ∧ tp ≤ p * s.height ∧
      (s.clickedSlider = -1 → s.clickedGain = -1 → mouseMotionEvent cfg s y = some s') := by
  have hh' : (0 : ℚ) < s.height := by exact_mod_cast hh
  have hpin' : (0 : ℚ) ≤ cfg.MOVEPIN_SIZE := by exact_mod_cast hpin
  have hm := motionThresh_fin cfg s y v g p hthr hv hg hg0 hp hh
  set t : ℚ := min p (max ((cfg.MOVEPIN_SIZE : ℚ) / s.height)
    (((y - s.clickedPixelOffset : Int) : ℚ) / s.height)) with ht
  have key : ∀ S : AudioView, motionThresh cfg s y = some S → S.clickedGain = s.clickedGain →
      s.clickedSlider = -1 → s.clickedGain = -1 → mouseMotionEvent cfg s y = some S := by
    intro S h1 h2 hsl hgn
    unfold mouseMotionEvent motionSlider
    rw [if_neg (by simp [hsl]), Option.some_bind, h1, Option.some_bind]
    unfold motionGain
    rw [if_neg (by simp [h2, hgn])]
  refine ⟨_, (s.height : ℚ) * t, hm, ?_, ?_, ?_, key _ hm rfl⟩
  · unfold thresholdPos
    simp only [viewAt_set_self hv, Option.map_some', hg, hp, Flt.ofInt, Flt.fin_mul_fin,
      Flt.fin_sub_fin]
    congr 2
    rw [div_mul_cancel₀ _ hg0]
    ring
  · have h1 : (cfg.MOVEPIN_SIZE : ℚ) / 2 ≤ (s.height : ℚ) * (cfg.MOVEPIN_SIZE / s.height) := by
      rw [mul_div_cancel₀ _ (ne_of_gt hh')]
      linarith
    have h2 : min p ((cfg.MOVEPIN_SIZE : ℚ) / s.height) ≤ t :=
      min_le_min le_rfl (le_max_left _ _)
    have h3 : (cfg.MOVEPIN_SIZE : ℚ) / 2 ≤ (s.height : ℚ) * min p (cfg.MOVEPIN_SIZE / s.height) := by
      rcases le_total p ((cfg.MOVEPIN_SIZE : ℚ) / s.height) with h | h
      · rw [min_eq_left h]; linarith
      · rw [min_eq_right h]; exact h1
    exact le_trans h3 (mul_le_mul_of_nonneg_left h2 hh'.le)
  · have : t ≤ p := min_le_left _ _
    nlinarith

/-- C5, witness: the default channel (position 0.4, gain 1) in a view 400 pixels high,
the pointer dragged to `y = 100`. -/
theorem threshold_drag_keeps_pin_in_range_witness :
    ∃ s' tp, motionThresh scenarioConfig thresholdDragView 100 = some s' ∧
      thresholdPos s' = some (Flt.fin tp) ∧
      (scenarioConfig.MOVEPIN_SIZE : ℚ) / 2 ≤ tp ∧ tp ≤ 0.4 * thresholdDragView.height ∧
      (thresholdDragView.clickedSlider = -1 → thresholdDragView.clickedGain = -1 →
        mouseMotionEvent scenarioConfig thresholdDragView 100 = some s') :=
  threshold_drag_keeps_pin_in_range scenarioConfig thresholdDragView 100 (newView 0) 1 0.4
    rfl rfl rfl (by norm_num)
    (by norm_num [newView, Flt.ofInt]) (by decide) (by decide)
    (by norm_num [scenarioConfig, thresholdDragView, AudioView.init])

/-- C5, counterexample: in a view 100 pixels high with the selected channel at position
0.05 (gain 1, pin size 30), a threshold drag to `y = 50` leaves `thresholdPos()` at 5
pixels, below `MOVEPIN_SIZE/2 = 15`. -/
theorem threshold_pin_above_half_pin :
    (mouseMotionEvent scenarioConfig lowThresholdDragView 50).bind thresholdPos
      = some (Flt.fin 5) ∧
    ¬ ((scenarioConfig.MOVEPIN_SIZE : ℚ) / 2 ≤ 5) := by
  constructor
  · norm_num [mouseMotionEvent, motionSlider, motionThresh, motionGain, viewAt, setViewAt,
      thresholdPos, lowThresholdDragView, AudioView.init, scenarioConfig, Flt.ofInt,
      Flt.fin_div_fin, Flt.fmin_fin_fin, Flt.fmax_fin_fin]
  · norm_num [scenarioConfig]

/-! ## Properties of the channel views kept by every call -/

theorem ViewsSatisfy.set {P : Nat → ChannelView → Prop} {views : List ChannelView}
    (h : ViewsSatisfy P views) (i : Nat) (w : ChannelView) (hw : P i w) :
    ViewsSatisfy P (views.set i w) := by
  intro j v hj
  rw [List.getElem?_set] at hj
  split at hj
  · subst ‹i = j›
    split at hj
    · cases hj
      exact hw
    · exact absurd hj (by simp)
  · exact h j v hj

theorem ViewsSatisfy.take {P : Nat → ChannelView → Prop} {views : List ChannelView}
    (h : ViewsSatisfy P views) (n : Nat) : ViewsSatisfy P (views.take n) := by
  intro j v hj
  rw [List.getElem?_take] at hj
  split at hj
  · exact h j v hj
  · exact absurd hj (by simp)

theorem getElem?_appended_views (views : List ChannelView) (k i : Nat) (v : ChannelView)
    (h : (views ++ (List.range' views.length k).map newView)[i]? = some v) :
    views[i]? = some v ∨ (views.length ≤ i ∧ i < views.length + k ∧ v = newView i) := by
  by_cases hi : i < views.length
  · left
    rwa [List.getElem?_append_left hi] at h
  · right
    have hi' : views.length ≤ i := not_lt.mp hi
    rw [List.getElem?_append_right hi', List.getElem?_map] at h
    by_cases hk : i - views.length < k
    · rw [List.getElem?_range' _ _ hk] at h
      simp only [Option.map_some', Option.some.injEq, Nat.one_mul] at h
      refine ⟨hi', by omega, ?_⟩
      rw [← h]
      congr 1
      omega
    · rw [List.getElem?_eq_none (by simpa using hk)] at h
      exact absurd h (by simp)

theorem updateView_views {P : Nat → ChannelView → Prop} (hP : KeptByEdits P)
    {s s' : AudioView} {n : Int} (h : ViewsSatisfy P s.views) (hs : updateView s n = some s') :
    ViewsSatisfy P s'.views := by
  unfold updateView at hs
  split at hs
  · split at hs
    · exact absurd hs (by simp)
    · cases hs
      exact h.take _
  · split at hs
    · cases hs
      intro i v hi
      rcases getElem?_appended_views _ _ _ _ hi with h1 | ⟨_, _, h3⟩
      · exact h i v h1
      · rw [h3]
        exact hP.fresh i
    · cases hs
      exact h

theorem sliderScan_hit_index {cfg : Config} {height xx y : Int} {views : List ChannelView}
    {k i : Nat} {d : Int} (h : sliderScan cfg height xx y views k = some (Hover.hit i d)) :
    k ≤ i ∧ i < k + views.length := by
  induction views generalizing k with
  | nil => simp [sliderScan] at h
  | cons v vs ih =>
    unfold sliderScan at h
    cases hd : (Flt.ofInt y - Flt.ofInt height * v.pos).toInt with
    | none => simp [hd] at h
    | some dy =>
      simp only [hd, Option.some_bind] at h
      split at h
      · cases h
        simp
      · have := ih h
        simp only [List.length_cons]
        omega

theorem pressWheel_views {P : Nat → ChannelView → Prop} (hP : KeptByEdits P) {cfg : Config}
    {s s' : AudioView} {up : Bool} {x y : Int} (h : ViewsSatisfy P s.views)
    (hs : pressWheel cfg s up x y = some s') : ViewsSatisfy P s'.views := by
  unfold pressWheel at hs
  split at hs
  · cases hr : determineSliderHover cfg s x y with
    | none => simp [hr] at hs
    | some r =>
      simp only [hr, Option.some_bind] at hs
      cases r with
      | miss =>
        cases hs
        exact h
      | hit i d =>
        simp only at hs
        cases hv : s.views[i]? with
        | none => simp [hv] at hs
        | some v =>
          simp only [hv, Option.map_some', Option.some.injEq] at hs
          subst hs
          apply h.set
          cases up
          · exact hP.wheelDown i v (h i v hv)
          · exact hP.wheelUp i v (h i v hv)
  · split at hs
    · cases hv : setOffset cfg
          { s with timeScale :=
              (if up then Flt.fmax (Flt.fin 1 / Flt.ofInt cfg.SAMPLE_RATE) (s.timeScale * Flt.fin 0.8)
               else Flt.fmin (Flt.fin 2) (s.timeScale * Flt.fin 1.2)) } s.channelOffset with
      | none => simp [hv] at hs
      | some r =>
        simp only [hv, Option.map_some', Option.some.injEq] at hs
        subst hs
        unfold setOffset at hv
        cases hvs : visibleSamples cfg
          { s with timeScale :=
              (if up then Flt.fmax (Flt.fin 1 / Flt.ofInt cfg.SAMPLE_RATE) (s.timeScale * Flt.fin 0.8)
               else Flt.fmin (Flt.fin 2) (s.timeScale * Flt.fin 1.2)) } with
        | none => simp [hvs] at hv
        | some z =>
          simp only [hvs, Option.map_some', Option.some.injEq] at hv
          subst hv
          exact h
    · cases hs
      exact h

theorem pressSliderOrGain_views {cfg : Config} {s s' : AudioView} {x y : Int}
    (hs : pressSliderOrGain cfg s x y = some s') : s'.views = s.views := by
  unfold pressSliderOrGain at hs
  split at hs
  · cases hr : determineSliderHover cfg s x y with
    | none => simp [hr] at hs
    | some r =>
      simp only [hr, Option.map_some', Option.some.injEq] at hs
      subst hs
      cases r <;> rfl
  · split at hs
    · cases hr : gainScan s.height y s.views 0 with
      | none => simp [hr] at hs
      | some r =>
        simp only [hr, Option.some_bind] at hs
        cases r with
        | miss =>
          cases hs
          rfl
        | hit i d =>
          simp only at hs
          cases hv : s.views[i]? with
          | none => simp [hv] at hs
          | some v =>
            simp only [hv, Option.map_some', Option.some.injEq] at hs
            subst hs
            rfl
    · cases hs
      rfl

theorem pressThresh_views {cfg : Config} {s s' : AudioView} {x y : Int}
    (hs : pressThresh cfg s x y = some s') : s'.views = s.views := by
  unfold pressThresh at hs
  split at hs
  · cases hr : determineThreshHover cfg s x y with
    | none => simp [hr] at hs
    | some r =>
      simp only [hr, Option.map_some', Option.some.injEq] at hs
      subst hs
      cases r <;> rfl
  · cases hs
    rfl

theorem mousePressEvent_views {P : Nat → ChannelView → Prop} (hP : KeptByEdits P)
    {cfg : Config} {s s' : AudioView} {button : MouseButton} {x y : Int}
    (h : ViewsSatisfy P s.views) (hs : mousePressEvent cfg s button x y = some s') :
    ViewsSatisfy P s'.views := by
  cases button with
  | LeftButton =>
    simp only [mousePressEvent] at hs
    cases h1 : pressSliderOrGain cfg s x y with
    | none => simp [h1] at hs
    | some s1 =>
      simp only [h1, Option.some_bind] at hs
      rw [pressThresh_views hs, pressSliderOrGain_views h1]
      exact h
  | WheelUpButton => exact pressWheel_views hP h hs
  | WheelDownButton => exact pressWheel_views hP h hs
  | OtherButton =>
    simp only [mousePressEvent, Option.some.injEq] at hs
    subst hs
    exact h

theorem setViewAt_views {P : Nat → ChannelView → Prop} {views views' : List ChannelView}
    {i : Int} {v w : ChannelView} (h : ViewsSatisfy P views) (hv : viewAt views i = some v)
    (hw : P i.toNat v → P i.toNat w) (hs : setViewAt views i w = some views') :
    ViewsSatisfy P views' := by
  rw [setViewAt_of_viewAt hv] at hs
  cases hs
  exact h.set _ _ (hw (h _ _ (viewAt_eq_some hv).2.2))

theorem motionSlider_views {P : Nat → ChannelView → Prop} (hP : KeptByEdits P)
    {s s' : AudioView} {y : Int} (h : ViewsSatisfy P s.views)
    (hs : motionSlider s y = some s') : ViewsSatisfy P s'.views := by
  unfold motionSlider at hs
  split at hs
  · cases hv : viewAt s.views s.clickedSlider with
    | none => simp [hv] at hs
    | some v =>
      simp only [hv, Option.some_bind, Option.map_eq_some'] at hs
      obtain ⟨views, hset, rfl⟩ := hs
      exact setViewAt_views h hv (hP.pos _ v _) hset
  · cases hs
    exact h

theorem motionThresh_views {P : Nat → ChannelView → Prop} (hP : KeptByEdits P)
    {cfg : Config} {s s' : AudioView} {y : Int} (h : ViewsSatisfy P s.views)
    (hs : motionThresh cfg s y = some s') : ViewsSatisfy P s'.views := by
  unfold motionThresh at hs
  split at hs
  · cases hv : viewAt s.views s.selectedChannel with
    | none => simp [hv] at hs
    | some v =>
      simp only [hv, Option.some_bind, Option.map_eq_some'] at hs
      obtain ⟨views, hset, rfl⟩ := hs
      exact setViewAt_views h hv (hP.thresh _ v _) hset
  · cases hs
    exact h

theorem motionGain_views {P : Nat → ChannelView → Prop} (hP : KeptByEdits P)
    {s s' : AudioView} {y : Int} (h : ViewsSatisfy P s.views)
    (hs : motionGain s y = some s') : ViewsSatisfy P s'.views := by
  unfold motionGain at hs
  split at hs
  · cases hv : viewAt s.views s.clickedGain with
    | none => simp [hv] at hs
    | some v =>
      simp only [hv, Option.some_bind, Option.map_eq_some'] at hs
      obtain ⟨views, hset, rfl⟩ := hs
      exact setViewAt_views h hv (hP.gain _ v _) hset
  · cases hs
    exact h

theorem mouseMotionEvent_views {P : Nat → ChannelView → Prop} (hP : KeptByEdits P)
    {cfg : Config} {s s' : AudioView} {y : Int} (h : ViewsSatisfy P s.views)
    (hs : mouseMotionEvent cfg s y = some s') : ViewsSatisfy P s'.views := by
  unfold mouseMotionEvent at hs
  cases h1 : motionSlider s y with
  | none => simp [h1] at hs
  | some s1 =>
    simp only [h1, Option.some_bind] at hs
    cases h2 : motionThresh cfg s1 y with
    | none => simp [h2] at hs
    | some s2 =>
      simp only [h2, Option.some_bind] at hs
      exact motionGain_views hP (motionThresh_views hP (motionSlider_views hP h h1) h2) hs

theorem setOffset_views {cfg : Config} {s : AudioView} {offset : Int} {r : AudioView × Flt}
    (hs : setOffset cfg s offset = some r) : r.1.views = s.views := by
  unfold setOffset at hs
  cases hv : visibleSamples cfg s with
  | none => simp [hv] at hs
  | some v =>
    simp only [hv, Option.map_some', Option.some.injEq] at hs
    subst hs
    rfl

theorem setRelOffset_views {cfg : Config} {s s' : AudioView} {reloffset : Int}
    (hs : setRelOffset cfg s reloffset = some s') : s'.views = s.views := by
  unfold setRelOffset at hs
  simp only [Option.bind_eq_some, Option.map_eq_some'] at hs
  obtain ⟨_, _, _, _, rfl⟩ := hs
  rfl

/-- One defined call keeps a property of the channel views that every edit keeps. -/
theorem step_views {P : Nat → ChannelView → Prop} (hP : KeptByEdits P) {cfg : Config}
    {s s' : AudioView} {c : Call} (h : ViewsSatisfy P s.views) (hs : step cfg s c = some s') :
    ViewsSatisfy P s'.views := by
  cases c with
  | updateView n => exact updateView_views hP h hs
  | setOffset offset =>
    simp only [step, Option.map_eq_some'] at hs
    obtain ⟨r, hr, rfl⟩ := hs
    rw [setOffset_views hr]
    exact h
  | setRelOffset reloffset =>
    rw [setRelOffset_views hs]
    exact h
  | toggleThreshMode =>
    simp only [step, Option.some.injEq] at hs
    subst hs
    exact h
  | mousePress button x y => exact mousePressEvent_views hP h hs
  | mouseRelease button =>
    simp only [step, Option.some.injEq] at hs
    subst hs
    unfold mouseReleaseEvent
    split <;> exact h
  | mouseMotion y => exact mouseMotionEvent_views hP h hs
  | resize width height =>
    simp only [step, Option.some.injEq] at hs
    subst hs
    exact h

/-- A sequence of defined calls keeps such a property. -/
theorem run_views {P : Nat → ChannelView → Prop} (hP : KeptByEdits P) {cfg : Config}
    {calls : List Call} {s s' : AudioView} (h : ViewsSatisfy P s.views)
    (hs : run cfg s calls = some s') : ViewsSatisfy P s'.views := by
  induction calls generalizing s with
  | nil =>
    simp only [run, Option.some.injEq] at hs
    subst hs
    exact h
  | cons c cs ih =>
    simp only [run] at hs
    cases h1 : step cfg s c with
    | none => simp [h1] at hs
    | some s1 =>
      simp only [h1, Option.some_bind] at hs
      exact ih (step_views hP h h1) hs

/-- Every reachable state has such a property: the initial list of views is empty. -/
theorem reachable_views {P : Nat → ChannelView → Prop} (hP : KeptByEdits P) {cfg : Config}
    {s : AudioView} (hs : Reachable cfg s) : ViewsSatisfy P s.views := by
  obtain ⟨w, h, g, calls, hrun⟩ := hs
  refine run_views hP ?_ hrun
  intro i v hi
  simp [AudioView.init] at hi

/-! ## The gain range -/

/-- A wheel-up step keeps a gain of `[0.001, 10]` in that range. -/
theorem wheelUp_gain_within (g : ℚ) (h1 : 0.001 ≤ g) (h2 : g ≤ 10) :
    (Flt.fmin (Flt.lit 10) (Flt.rnd (Flt.fin g * Flt.lit 1.2))).within 0.001 10 := by
  have hx1 : (9 : ℚ) * 2 ^ (-13 : Int) ≤ g * (10066330 / 8388608) := by
    norm_num
    linarith
  have hx2 : g * (10066330 / 8388608) ≤ 13 := by linarith
  have hx0 : (0 : ℚ) ≤ g * (10066330 / 8388608) := by linarith
  have habs : |g * (10066330 / 8388608)| ≤ (2 : ℚ) ^ (4 : Int) := by
    rw [abs_of_nonneg hx0]
    norm_num
    linarith
  have hb : binade (g * (10066330 / 8388608)) - 23 ≤ -13 := by
    have := binade_le_of_abs_lt (g * (10066330 / 8388608)) 4 (by norm_num)
      (lt_of_le_of_lt habs (by norm_num))
    omega
  have hlow := le_f32_of_le _ 9 (-13) hb (by exact_mod_cast hx1)
  rw [Flt.lit_10, Flt.lit_1_2, Flt.fin_mul_fin,
    Flt.rnd_fin_of_abs_le _ 4 (by norm_num) (by norm_num) habs, Flt.fmin_fin_fin]
  refine ⟨_, rfl, le_min (by norm_num) ?_, min_le_left _ _⟩
  refine le_trans ?_ hlow
  norm_num

/-- A wheel-down step keeps a gain of `[0.001, 10]` in that range. -/
theorem wheelDown_gain_within (g : ℚ) (h1 : 0.001 ≤ g) (h2 : g ≤ 10) :
    (Flt.fmax (Flt.lit 0.001) (Flt.rnd (Flt.fin g * Flt.lit 0.8))).within 0.001 10 := by
  have hx0 : (0 : ℚ) ≤ g * (13421773 / 16777216) := by linarith
  have hx2 : g * (13421773 / 16777216) ≤ ((9 : Int) : ℚ) := by
    push_cast
    linarith
  have habs : |g * (13421773 / 16777216)| ≤ (2 : ℚ) ^ (4 : Int) := by
    rw [abs_of_nonneg hx0]
    norm_num
    linarith
  have hup := f32_le_intCast _ 9 (lt_of_le_of_lt habs (by norm_num)) hx2
  rw [Flt.lit_0_001, Flt.lit_0_8, Flt.fin_mul_fin,
    Flt.rnd_fin_of_abs_le _ 4 (by norm_num) (by norm_num) habs, Flt.fmax_fin_fin]
  refine ⟨_, rfl, le_trans (by norm_num) (le_max_left _ _), max_le (by norm_num) ?_⟩
  push_cast at hup
  linarith

theorem gain_keptByEdits : KeptByEdits (fun _ v => v.gain.within 0.001 10) where
  pos := fun _ _ _ h => h
  thresh := fun _ _ _ h => h
  gain := fun _ _ x _ => Flt.clamp_within (by norm_num) x
  wheelUp := by
    rintro _ v ⟨g, hg, h1, h2⟩
    show (Flt.fmin (Flt.lit 10) (Flt.rnd (v.gain * Flt.lit 1.2))).within 0.001 10
    rw [hg]
    exact wheelUp_gain_within g h1 h2
  wheelDown := by
    rintro _ v ⟨g, hg, h1, h2⟩
    show (Flt.fmax (Flt.lit 0.001) (Flt.rnd (v.gain * Flt.lit 0.8))).within 0.001 10
    rw [hg]
    exact wheelDown_gain_within g h1 h2
  fresh := fun _ => ⟨1, rfl, by norm_num, by norm_num⟩

theorem sliderScan_defined (cfg : Config) (height xx y : Int) (views : List ChannelView)
    (k : Nat) (hfin : ∀ v ∈ views, ∃ p, v.pos = Flt.fin p) :
    ∃ r, sliderScan cfg height xx y views k = some r := by
  induction views generalizing k with
  | nil => exact ⟨_, rfl⟩
  | cons v vs ih =>
    obtain ⟨p, hp⟩ := hfin v (List.mem_cons_self _ _)
    unfold sliderScan
    simp only [hp, Flt.ofInt, Flt.fin_mul_fin, Flt.fin_sub_fin, Flt.toInt_fin, Option.some_bind]
    split
    · exact ⟨_, rfl⟩
    · exact ih (k + 1) (fun w hw => hfin w (List.mem_cons_of_mem _ hw))

/-- A wheel event is defined when the positions and the time scale are finite, the sample
rate is positive and the widget has a non-zero width. -/
theorem pressWheel_defined (cfg : Config) (s : AudioView) (up : Bool) (x y : Int) (ts : ℚ)
    (hfin : ∀ v ∈ s.views, ∃ p, v.pos = Flt.fin p)
    (hSR : 0 < cfg.SAMPLE_RATE) (hw : s.width ≠ 0) (hts : s.timeScale = Flt.fin ts)
    (hlo : 1 / (cfg.SAMPLE_RATE : ℚ) ≤ ts) :
    ∃ s', pressWheel cfg s up x y = some s' := by
  by_cases hx : x < Int.tdiv (cfg.MOVEPIN_SIZE * 3) 2
  · obtain ⟨r, hr⟩ := sliderScan_defined cfg s.height
      ((cfg.MOVEPIN_SIZE - x) * (cfg.MOVEPIN_SIZE - x)) y s.views 0 hfin
    unfold pressWheel
    rw [if_pos hx]
    simp only [determineSliderHover, hr, Option.some_bind]
    cases r with
    | miss => exact ⟨_, rfl⟩
    | hit i d =>
      have hi := (sliderScan_hit_index hr).2
      simp only [Nat.zero_add] at hi
      simp only [List.getElem?_eq_getElem hi, Option.map_some']
      exact ⟨_, rfl⟩
  · by_cases hcol : s.threshMode = false ∨ x < s.width - Int.tdiv (cfg.MOVEPIN_SIZE * 3) 2
    · obtain ⟨v, _, hp⟩ := pressWheel_timebase cfg s up x y ts hSR hw hts hlo hx hcol
      exact ⟨_, hp⟩
    · unfold pressWheel
      rw [if_neg hx, if_neg hcol]
      exact ⟨_, rfl⟩

/-- C6: in a state where every channel's gain is in `[0.001, 10]`, every wheel-up event,
every wheel-down event and every motion event (whatever the pointer position, the stored
anchor `clickedPixelOffset` and the gain snapshot `prevGain`) that is defined leaves every
channel's gain in `[0.001, 10]`, and so does `updateView` with its newly created channels.
The gain-drag motion event is defined for every anchor, zero included, and stores the
clamped value `max(0.001, min(10, newGain))`; the wheel events are defined as soon as the
positions and the time scale are finite and the widget width is not zero. -/
theorem gain_edits_keep_range (cfg : Config) (s : AudioView) (h : gainsInRange s) :
    (∀ x y s', mousePressEvent cfg s MouseButton.WheelUpButton x y = some s' →
      gainsInRange s') ∧
    (∀ x y s', mousePressEvent cfg s MouseButton.WheelDownButton x y = some s' →
      gainsInRange s') ∧
    (∀ y s', mouseMotionEvent cfg s y = some s' → gainsInRange s') ∧
    (∀ n s', updateView s n = some s' → gainsInRange s') ∧
    (∀ y v, s.clickedSlider = -1 → s.clickedThresh = false →
      viewAt s.views s.clickedGain = some v →
      ∃ s', mouseMotionEvent cfg s y = some s' ∧ ∃ v', viewAt s'.views s.clickedGain = some v' ∧
        v'.gain.within 0.001 10) ∧
    (∀ (up : Bool) x y ts, (∀ v ∈ s.views, ∃ p, v.pos = Flt.fin p) → 0 < cfg.SAMPLE_RATE →
      s.width ≠ 0 → s.timeScale = Flt.fin ts → 1 / (cfg.SAMPLE_RATE : ℚ) ≤ ts →
      ∃ s', mousePressEvent cfg s
        (if up then MouseButton.WheelUpButton else MouseButton.WheelDownButton) x y
        = some s') := by
  refine ⟨?_, ?_, ?_, ?_, ?_, ?_⟩
  · intro x y s' hs
    exact mousePressEvent_views gain_keptByEdits h hs
  · intro x y s' hs
    exact mousePressEvent_views gain_keptByEdits h hs
  · intro y s' hs
    exact mouseMotionEvent_views gain_keptByEdits h hs
  · intro n s' hs
    exact updateView_views gain_keptByEdits h hs
  · intro y v hsl hthr hv
    have hne : s.clickedGain ≠ -1 := by
      intro hc
      have := (viewAt_eq_some hv).1
      omega
    have hm : mouseMotionEvent cfg s y = some { s with views := (s.views.set s.clickedGain.toNat
        { v with gain := Flt.fmax (Flt.fin 0.001) (Flt.fmin (Flt.fin 10) (s.prevGain *
          Flt.fabs ((Flt.ofInt s.height * v.pos - Flt.ofInt y) /
            Flt.ofInt s.clickedPixelOffset))) }) } := by
      unfold mouseMotionEvent motionSlider motionThresh
      rw [if_neg (by simp [hsl]), Option.some_bind, hthr]
      simp only [Bool.false_eq_true, if_false, Option.some_bind]
      unfold motionGain
      rw [if_pos hne, hv, Option.some_bind]
      simp only [setViewAt_of_viewAt hv, Option.map_some', hthr]
    exact ⟨_, hm, _, viewAt_set_self hv _, Flt.clamp_within (by norm_num) _⟩
  · intro up x y ts hfin hSR hw hts hlo
    obtain ⟨s', hs'⟩ := pressWheel_defined cfg s up x y ts hfin hSR hw hts hlo
    refine ⟨s', ?_⟩
    cases up
    · simpa [mousePressEvent] using hs'
    · simpa [mousePressEvent] using hs'

theorem gainsInRange_gainDragView : gainsInRange gainDragView := by
  intro i v hv
  have hmem := List.getElem?_mem hv
  simp only [gainDragView, AudioView.init, List.mem_singleton] at hmem
  subst hmem
  exact ⟨1, rfl, by norm_num, by norm_num⟩

/-- C6, witness: one default channel whose gain drag has the anchor 0.  A motion event
at `y = 100` is defined and leaves the gain in range (the division by the zero anchor
gives an infinite `newGain`, clamped to 10). -/
theorem gain_edits_keep_range_witness :
    gainsInRange gainDragView ∧
    ∃ s', mouseMotionEvent scenarioConfig gainDragView 100 = some s' ∧ gainsInRange s' := by
  have h := gain_edits_keep_range scenarioConfig gainDragView gainsInRange_gainDragView
  obtain ⟨s', hs', _⟩ := h.2.2.2.2.1 100 (newView 0) rfl rfl rfl
  exact ⟨gainsInRange_gainDragView, s', hs', h.2.2.1 100 s' hs'⟩

/-! ## Resizing the channel list -/

theorem newView_eq (i : Nat) :
    newView i = { gain := Flt.fin 1, pos := Flt.fin (0.4 + 0.1 * (i : ℚ)), thresh := Flt.fin 0.1 } := by
  simp [newView, Flt.ofInt]

/-- C7: for every `n >= 0` and every current channel list of length `k`, `updateView(n)`
is defined, changes nothing but the list, and yields a list of exactly `n` entries whose
first `min(n, k)` entries are unchanged and whose entry at every index `i` with
`k <= i < n` has gain 1.0, position `0.4 + 0.1*i` and threshold 0.1.  In particular a
resize of a fresh view from 0 to 3 channels gives the positions 0.4, 0.5, 0.6 with gain
1.0 and threshold 0.1 for all three. -/
theorem updateView_resizes (s : AudioView) (n : Int) (hn : 0 ≤ n) :
    (∃ s', updateView s n = some s' ∧ s' = { s with views := s'.views } ∧
      (s'.views.length : Int) = n ∧
      (∀ i : Nat, (i : Int) < min n s.views.length → s'.views[i]? = s.views[i]?) ∧
      (∀ i : Nat, s.views.length ≤ i → (i : Int) < n →
        s'.views[i]? = some
          { gain := Flt.fin 1, pos := Flt.fin (0.4 + 0.1 * (i : ℚ)), thresh := Flt.fin 0.1 })) ∧
    (∀ (width height : Int) (prevGain : Flt),
      (updateView (AudioView.init width height prevGain) 3).map (fun s' => s'.views) = some
        [{ gain := Flt.fin 1, pos := Flt.fin 0.4, thresh := Flt.fin 0.1 },
         { gain := Flt.fin 1, pos := Flt.fin 0.5, thresh := Flt.fin 0.1 },
         { gain := Flt.fin 1, pos := Flt.fin 0.6, thresh := Flt.fin 0.1 }]) := by
  constructor
  · unfold updateView
    by_cases h1 : n < (s.views.length : Int)
    · rw [if_pos h1, if_neg (by omega)]
      refine ⟨_, rfl, rfl, ?_, ?_, ?_⟩
      · simp only [List.length_take]
        omega
      · intro i hi
        exact List.getElem?_take_of_lt (by omega)
      · intro i h2 h3
        omega
    · rw [if_neg h1]
      by_cases h2 : n > (s.views.length : Int)
      · rw [if_pos h2]
        refine ⟨_, rfl, rfl, ?_, ?_, ?_⟩
        · simp only [List.length_append, List.length_map, List.length_range']
          omega
        · intro i hi
          exact List.getElem?_append_left (by omega)
        · intro i h3 h4
          simp only []
          rw [List.getElem?_append_right h3, List.getElem?_map,
            List.getElem?_range' _ _ (by omega)]
          simp only [Option.map_some', Nat.one_mul, Option.some.injEq]
          rw [show s.views.length + (i - s.views.length) = i by omega]
          exact newView_eq i
      · rw [if_neg h2]
        refine ⟨s, rfl, rfl, by omega, fun _ _ => rfl, ?_⟩
        intro i h3 h4
        omega
  · intro width height prevGain
    norm_num [updateView, AudioView.init, List.range', newView, Flt.ofInt]

/-- C7, witness: the resize of the fresh view to 3 channels. -/
theorem updateView_resizes_witness :
    ∃ s', updateView freshView 3 = some s' ∧ s' = { freshView with views := s'.views } ∧
      (s'.views.length : Int) = 3 ∧
      (∀ i : Nat, (i : Int) < min 3 freshView.views.length →
        s'.views[i]? = freshView.views[i]?) ∧
      (∀ i : Nat, freshView.views.length ≤ i → (i : Int) < 3 →
        s'.views[i]? = some
          { gain := Flt.fin 1, pos := Flt.fin (0.4 + 0.1 * (i : ℚ)), thresh := Flt.fin 0.1 }) :=
  (updateView_resizes freshView 3 (by decide)).1

/-! ## The range of the vertical positions -/

theorem position_keptByEdits :
    KeptByEdits (fun i v => v.pos.within 0.05 (max 0.95 (0.4 + 0.1 * (i : ℚ)))) where
  pos := by
    intro i v x _
    obtain ⟨q, hq, h1, h2⟩ := Flt.clamp_within (show (0.05 : ℚ) ≤ 0.95 by norm_num) x
    exact ⟨q, hq, h1, le_trans h2 (le_max_left _ _)⟩
  thresh := fun _ _ _ h => h
  gain := fun _ _ _ h => h
  wheelUp := fun _ _ h => h
  wheelDown := fun _ _ h => h
  fresh := by
    intro i
    refine ⟨0.4 + 0.1 * (i : ℚ), by rw [newView_eq], ?_, le_max_right _ _⟩
    have : (0 : ℚ) ≤ (i : ℚ) := Nat.cast_nonneg i
    linarith

/-- C8 (amended): in every state reachable from the initial state through `updateView`
calls with any `n >= 0`, pointer press, motion, release and wheel events (and the other
calls of the view, at any widget size), the channel of index `i` has a finite position
with `0.05 <= pos <= max(0.95, 0.4 + 0.1*i)`; so `0.05 <= pos <= 0.95` holds for every
channel of index at most 5. -/
theorem reachable_positions_bounded (cfg : Config) (s : AudioView) (hs : Reachable cfg s)
    (i : Nat) (v : ChannelView) (hv : s.views[i]? = some v) :
    ∃ p, v.pos = Flt.fin p ∧ 0.05 ≤ p ∧ p ≤ max 0.95 (0.4 + 0.1 * (i : ℚ)) ∧
      (i ≤ 5 → p ≤ 0.95) := by
  obtain ⟨p, hp, h1, h2⟩ := reachable_views position_keptByEdits hs i v hv
  refine ⟨p, hp, h1, h2, ?_⟩
  intro hi
  have : (i : ℚ) ≤ 5 := by exact_mod_cast hi
  exact le_trans h2 (max_le le_rfl (by linarith))

theorem run_threeChannelCalls :
    run scenarioConfig (AudioView.init 1000 400 (Flt.fin 1)) threeChannelCalls
      = some threeChannelView := by
  norm_num [run, step, threeChannelCalls, threeChannelView, freshView, updateView,
    AudioView.init, List.range']

/-- C8, witness: the last of three freshly created channels. -/
theorem reachable_positions_bounded_witness :
    Reachable scenarioConfig threeChannelView ∧
    threeChannelView.views[2]? = some (newView 2) ∧
    ∃ p, (newView 2).pos = Flt.fin p ∧ 0.05 ≤ p ∧ p ≤ max 0.95 (0.4 + 0.1 * ((2 : Nat) : ℚ)) ∧
      (2 ≤ 5 → p ≤ 0.95) :=
  ⟨⟨1000, 400, Flt.fin 1, threeChannelCalls, run_threeChannelCalls⟩, rfl,
    reachable_positions_bounded scenarioConfig threeChannelView
      ⟨1000, 400, Flt.fin 1, threeChannelCalls, run_threeChannelCalls⟩ 2 (newView 2) rfl⟩

/-- C8, counterexample: `updateView(7)` on a fresh view creates the channel of index 6 at
the position `0.4 + 0.1*6 = 1.0`, above 0.95. -/
theorem seventh_channel_above_range :
    (∃ s, run scenarioConfig (AudioView.init 1000 400 (Flt.fin 1)) sevenChannelCalls = some s ∧
      s.views[6]? = some { gain := Flt.fin 1, pos := Flt.fin 1, thresh := Flt.fin 0.1 }) ∧
    ¬ ((1 : ℚ) ≤ 0.95) := by
  constructor
  · norm_num [run, step, sevenChannelCalls, updateView, AudioView.init, List.range', newView,
      Flt.ofInt]
  · norm_num

/-! ## The selected channel across a resize -/

/-- C9 (amended): for every `n` with `1 <= n` smaller than the current channel count,
`updateView(n)` is defined and leaves `selectedChannel` unchanged; so `selectedChannel < n`
holds afterwards exactly when it held before.  When `0 <= selectedChannel < n` the
selected channel still exists, is unchanged, and `thresholdPos()` reads it. -/
theorem updateView_keeps_selectedChannel (s : AudioView) (n : Int) (h1 : 1 ≤ n)
    (h2 : n < (s.views.length : Int)) :
    ∃ s', updateView s n = some s' ∧ s'.selectedChannel = s.selectedChannel ∧
      (s'.selectedChannel < n ↔ s.selectedChannel < n) ∧
      (0 ≤ s.selectedChannel → s.selectedChannel < n →
        ∃ v, viewAt s'.views s'.selectedChannel = some v ∧
          viewAt s.views s.selectedChannel = some v ∧
          thresholdPos s' = some (Flt.ofInt s.height * (v.pos - v.thresh * v.gain))) := by
  refine ⟨{ s with views := s.views.take n.toNat }, ?_, rfl, Iff.rfl, ?_⟩
  · unfold updateView
    rw [if_pos h2, if_neg (by omega)]
  · intro h3 h4
    have hlt : s.selectedChannel.toNat < s.views.length := by omega
    refine ⟨s.views[s.selectedChannel.toNat], ?_, ?_, ?_⟩
    · simp only [viewAt, if_pos h3]
      rw [List.getElem?_take_of_lt (by omega), List.getElem?_eq_getElem hlt]
    · simp only [viewAt, if_pos h3]
      rw [List.getElem?_eq_getElem hlt]
    · simp only [thresholdPos, viewAt, if_pos h3]
      rw [List.getElem?_take_of_lt (by omega), List.getElem?_eq_getElem hlt]
      rfl

/-- C9, witness: three channels, the first selected, shrunk to two. -/
theorem updateView_keeps_selectedChannel_witness :
    ∃ s', updateView threeChannelView 2 = some s' ∧
      s'.selectedChannel = threeChannelView.selectedChannel ∧
      (s'.selectedChannel < 2 ↔ threeChannelView.selectedChannel < 2) ∧
      (0 ≤ threeChannelView.selectedChannel → threeChannelView.selectedChannel < 2 →
        ∃ v, viewAt s'.views s'.selectedChannel = some v ∧
          viewAt threeChannelView.views threeChannelView.selectedChannel = some v ∧
          thresholdPos s'
            = some (Flt.ofInt threeChannelView.height * (v.pos - v.thresh * v.gain))) :=
  updateView_keeps_selectedChannel threeChannelView 2 (by decide) (by decide)

/-- C9, counterexample: three channels are created, the last one is selected by a click
on its pin, and the list is shrunk to one channel.  Afterwards `selectedChannel` is still
2, not below the channel count 1, and `thresholdPos()` has no entry to read. -/
theorem selectedChannel_not_reclamped :
    ∃ s, run scenarioConfig (AudioView.init 1000 400 (Flt.fin 1)) shrinkBelowSelectionCalls
        = some s ∧
      s.views.length = 1 ∧ s.selectedChannel = 2 ∧ ¬ (s.selectedChannel < 1) ∧
      thresholdPos s = none := by
  norm_num [run, step, shrinkBelowSelectionCalls, updateView, AudioView.init, List.range',
    newView, mousePressEvent, pressSliderOrGain, pressThresh, determineSliderHover, sliderScan,
    mouseReleaseEvent, thresholdPos, viewAt, scenarioConfig, Flt.ofInt, truncQ_ofNat,
    truncQ_zero]

/-! ## The viewport offset invariant -/

theorem lt_truncQ_add_one (q : ℚ) : q < (truncQ q : ℚ) + 1 := by
  unfold truncQ
  split
  · exact Int.lt_floor_add_one q
  · have := Int.le_ceil q
    linarith

theorem truncQ_sub_one_lt (q : ℚ) : (truncQ q : ℚ) - 1 < q := by
  unfold truncQ
  split
  · have := Int.floor_le q
    linarith
  · have := Int.ceil_lt_add_one q
    linarith

theorem truncQ_le_self {q : ℚ} (h : 0 ≤ q) : (truncQ q : ℚ) ≤ q := by
  unfold truncQ
  rw [if_pos h]
  exact Int.floor_le q

theorem self_le_truncQ {q : ℚ} (h : q ≤ 0) : q ≤ (truncQ q : ℚ) := by
  unfold truncQ
  split
  · have hq : q = 0 := le_antisymm h ‹0 ≤ q›
    subst hq
    simp
  · exact Int.le_ceil q

/-- C17: in every state, whatever drag is active, a release of the left (primary) button
leaves no drag active (`clickedSlider = -1`, `clickedGain = -1`, `clickedThresh = false`)
and changes no other member: the channel views, the time scale, the offset, the threshold
mode and the selected channel are unchanged.  A release of any other button changes
nothing at all. -/
theorem release_clears_drags (s : AudioView) :
    mouseReleaseEvent s MouseButton.LeftButton
      = { s with clickedSlider := -1, clickedThresh := false, clickedGain := -1 } ∧
    (mouseReleaseEvent s MouseButton.LeftButton).clickedSlider = -1 ∧
    (mouseReleaseEvent s MouseButton.LeftButton).clickedGain = -1 ∧
    (mouseReleaseEvent s MouseButton.LeftButton).clickedThresh = false ∧
    activeDrags (mouseReleaseEvent s MouseButton.LeftButton) = 0 ∧
    (mouseReleaseEvent s MouseButton.LeftButton).views = s.views ∧
    (mouseReleaseEvent s MouseButton.LeftButton).timeScale = s.timeScale ∧
    (mouseReleaseEvent s MouseButton.LeftButton).channelOffset = s.channelOffset ∧
    (mouseReleaseEvent s MouseButton.LeftButton).threshMode = s.threshMode ∧
    (mouseReleaseEvent s MouseButton.LeftButton).selectedChannel = s.selectedChannel ∧
    mouseReleaseEvent s MouseButton.WheelUpButton = s ∧
    mouseReleaseEvent s MouseButton.WheelDownButton = s ∧
    mouseReleaseEvent s MouseButton.OtherButton = s := by
  refine ⟨rfl, rfl, rfl, rfl, rfl, rfl, rfl, rfl, rfl, rfl, rfl, rfl, rfl⟩

/-! ## Positions under the edits of a motion event -/

theorem set_eq_self_of_getElem? {α : Type} (l : List α) (i : Nat) (a : α)
    (h : l[i]? = some a) : l.set i a = l := by
  induction l generalizing i with
  | nil => rfl
  | cons b bs ih =>
    cases i with
    | zero =>
      simp only [List.getElem?_cons_zero, Option.some.injEq] at h
      subst h
      rfl
    | succ j =>
      simp only [List.getElem?_cons_succ] at h
      simp only [List.set_cons_succ, ih j h]

/-- Replacing a view by one with the same position leaves the list of positions as it
was. -/
theorem map_pos_set (views : List ChannelView) (i : Nat) (v w : ChannelView)
    (hv : views[i]? = some v) (hw : w.pos = v.pos) :
    (views.set i w).map (fun u => u.pos) = views.map (fun u => u.pos) := by
  rw [List.map_set]
  apply set_eq_self_of_getElem?
  rw [List.getElem?_map, hv, hw]
  rfl

theorem motionThresh_map_pos {cfg : Config} {s s' : AudioView} {y : Int}
    (hs : motionThresh cfg s y = some s') :
    s'.views.map (fun u => u.pos) = s.views.map (fun u => u.pos) := by
  unfold motionThresh at hs
  split at hs
  · cases hv : viewAt s.views s.selectedChannel with
    | none => simp [hv] at hs
    | some v =>
      simp only [hv, Option.some_bind, setViewAt_of_viewAt hv, Option.map_some',
        Option.some.injEq] at hs
      subst hs
      exact map_pos_set _ _ v _ (viewAt_eq_some hv).2.2 rfl
  · cases hs
    rfl

theorem motionGain_map_pos {s s' : AudioView} {y : Int}
    (hs : motionGain s y = some s') :
    s'.views.map (fun u => u.pos) = s.views.map (fun u => u.pos) := by
  unfold motionGain at hs
  split at hs
  · cases hv : viewAt s.views s.clickedGain with
    | none => simp [hv] at hs
    | some v =>
      simp only [hv, Option.some_bind, setViewAt_of_viewAt hv, Option.map_some',
        Option.some.injEq] at hs
      subst hs
      exact map_pos_set _ _ v _ (viewAt_eq_some hv).2.2 rfl
  · cases hs
    rfl

/-- The slider branch of a motion event on a positive height: the dragged channel gets
the clamped position, nothing else changes. -/
theorem motionSlider_fin (s : AudioView) (y : Int) (v : ChannelView)
    (hv : viewAt s.views s.clickedSlider = some v) (hh : 0 < s.height) :
    motionSlider s y = some { s with views := (s.views.set s.clickedSlider.toNat
      { v with pos := Flt.fin (clampedPos y s.clickedPixelOffset s.height) }) } := by
  have hh' : (s.height : ℚ) ≠ 0 := by
    have : (0 : ℚ) < s.height := by exact_mod_cast hh
    exact ne_of_gt this
  have hne : s.clickedSlider ≠ -1 := by
    intro hc
    have := (viewAt_eq_some hv).1
    omega
  unfold motionSlider
  rw [if_pos hne, hv, Option.some_bind]
  simp only [Flt.ofInt, Flt.fin_div_fin_of_ne _ hh', Flt.fmin_fin_fin, Flt.fmax_fin_fin,
    setViewAt_of_viewAt hv, Option.map_some', clampedPos]

/-- C14: while a slider drag of an existing channel `c = clickedSlider` is active, for
every pointer `y`, every stored anchor `clickedPixelOffset` and every positive view
height `h`, the slider branch of the motion event is defined and gives channel `c` the
position `clamp((y + anchor)/h, 0.05, 0.95)`, which lies in `[0.05, 0.95]`; channel `c`
has that position after every motion event that is defined, and the event is defined
when no other drag is active. -/
theorem slider_drag_clamps_position (cfg : Config) (s : AudioView) (y : Int) (v : ChannelView)
    (hv : viewAt s.views s.clickedSlider = some v) (hh : 0 < s.height) :
    0.05 ≤ clampedPos y s.clickedPixelOffset s.height ∧
    clampedPos y s.clickedPixelOffset s.height ≤ 0.95 ∧
    (∃ s1, motionSlider s y = some s1 ∧
      viewAt s1.views s.clickedSlider
        = some { v with pos := Flt.fin (clampedPos y s.clickedPixelOffset s.height) } ∧
      (s.clickedThresh = false → s.clickedGain = -1 → mouseMotionEvent cfg s y = some s1)) ∧
    (∀ s', mouseMotionEvent cfg s y = some s' →
      ∃ v', viewAt s'.views s.clickedSlider = some v' ∧
        v'.pos = Flt.fin (clampedPos y s.clickedPixelOffset s.height)) := by
  have hm := motionSlider_fin s y v hv hh
  have h0 := (viewAt_eq_some hv).1
  refine ⟨le_max_left _ _, max_le (by norm_num) (min_le_left _ _), ⟨_, hm, ?_, ?_⟩, ?_⟩
  · exact viewAt_set_self hv _
  · intro hthr hgn
    unfold mouseMotionEvent
    rw [hm, Option.some_bind]
    unfold motionThresh
    simp only [hthr, Bool.false_eq_true, if_false, Option.some_bind]
    unfold motionGain
    rw [if_neg (by simp [hgn])]
  · intro s' hs'
    unfold mouseMotionEvent at hs'
    rw [hm, Option.some_bind] at hs'
    simp only [Option.bind_eq_some] at hs'
    obtain ⟨s2, h2, hs'⟩ := hs'
    have e1 := motionThresh_map_pos h2
    have e2 := motionGain_map_pos hs'
    have e3 := congrArg (fun l => l[s.clickedSlider.toNat]?) (e2.trans e1)
    simp only [List.getElem?_map] at e3
    have hself := viewAt_set_self hv
      ({ v with pos := Flt.fin (clampedPos y s.clickedPixelOffset s.height) })
    have hget := (viewAt_eq_some hself).2.2
    rw [hget] at e3
    cases hv' : s'.views[s.clickedSlider.toNat]? with
    | none => simp [hv'] at e3
    | some v' =>
      simp only [hv', Option.map_some', Option.some.injEq] at e3
      exact ⟨v', by simp only [viewAt, if_pos h0, hv'], e3⟩

/-- C14, witness: the default channel dragged to `y = 260` in a view 400 pixels high, with
the anchor 0; the position becomes `260/400 = 0.65`. -/
theorem slider_drag_clamps_position_witness :
    0.05 ≤ clampedPos 260 sliderDragView.clickedPixelOffset sliderDragView.height ∧
    clampedPos 260 sliderDragView.clickedPixelOffset sliderDragView.height ≤ 0.95 ∧
    (∃ s1, motionSlider sliderDragView 260 = some s1 ∧
      viewAt s1.views sliderDragView.clickedSlider
        = some { newView 0 with pos := (Flt.fin
            (clampedPos 260 sliderDragView.clickedPixelOffset sliderDragView.height)) } ∧
      (sliderDragView.clickedThresh = false → sliderDragView.clickedGain = -1 →
        mouseMotionEvent scenarioConfig sliderDragView 260 = some s1)) ∧
    (∀ s', mouseMotionEvent scenarioConfig sliderDragView 260 = some s' →
      ∃ v', viewAt s'.views sliderDragView.clickedSlider = some v' ∧
        v'.pos = Flt.fin
          (clampedPos 260 sliderDragView.clickedPixelOffset sliderDragView.height)) :=
  slider_drag_clamps_position scenarioConfig sliderDragView 260 (newView 0) rfl (by decide)

/-! ## The wheel on a position pin -/

/-- The pin hit test reads nothing but the positions of the channels. -/
theorem sliderScan_congr_pos (cfg : Config) (height xx y : Int) (views views' : List ChannelView)
    (k : Nat) (h : views.map (fun u => u.pos) = views'.map (fun u => u.pos)) :
    sliderScan cfg height xx y views k = sliderScan cfg height xx y views' k := by
  induction views generalizing views' k with
  | nil =>
    cases views' with
    | nil => rfl
    | cons w ws => simp at h
  | cons v vs ih =>
    cases views' with
    | nil => simp at h
    | cons w ws =>
      simp only [List.map_cons, List.cons.injEq] at h
      unfold sliderScan
      rw [h.1, ih ws (k + 1) h.2]

/-- One wheel-down event on the pin of channel `i`: the gain of that channel is scaled and
clamped, nothing else changes, and the same point still hits the same pin. -/
theorem wheelDown_hit_step (cfg : Config) (st : AudioView) (x y : Int) (i : Nat) (d : Int)
    (v : ChannelView) (hx : x < Int.tdiv (cfg.MOVEPIN_SIZE * 3) 2)
    (hhit : determineSliderHover cfg st x y = some (Hover.hit i d))
    (hv : st.views[i]? = some v) :
    mousePressEvent cfg st MouseButton.WheelDownButton x y = some { st with views :=
      (st.views.set i
        { v with gain := Flt.fmax (Flt.lit 0.001) (Flt.rnd (v.gain * Flt.lit 0.8)) }) } ∧
    determineSliderHover cfg { st with views :=
      (st.views.set i
        { v with gain := Flt.fmax (Flt.lit 0.001) (Flt.rnd (v.gain * Flt.lit 0.8)) }) } x y
      = some (Hover.hit i d) := by
  constructor
  · simp only [mousePressEvent, pressWheel, if_pos hx, hhit, Option.some_bind, hv,
      Option.map_some', Bool.false_eq_true, if_false]
  · rw [← hhit]
    unfold determineSliderHover
    exact sliderScan_congr_pos _ _ _ _ _ _ _ (map_pos_set _ _ v _ hv rfl)

/-- The product of a finite `float` and `0.8f` rounds to a finite `float`: its magnitude is
at most that of the largest one, `(2^24 - 1) * 2^104`. -/
theorem wheelDown_product_bound (g : ℚ) (hg : |g| < (2 : ℚ) ^ (128 : Nat)) :
    |f32 (g * (13421773 / 16777216))| ≤ 16777215 * (2 : ℚ) ^ (104 : Int) := by
  have hx : |g * (13421773 / 16777216)| ≤ 16777215 * (2 : ℚ) ^ (104 : Int) := by
    rw [abs_mul, abs_of_pos (by norm_num : (0 : ℚ) < 13421773 / 16777216)]
    have h0 := abs_nonneg g
    have e : (16777215 : ℚ) * 2 ^ (104 : Int) = 2 ^ (128 : Nat) * (16777215 / 16777216) := by
      norm_num
    rw [e]
    nlinarith
  have hlt : |g * (13421773 / 16777216)| < (2 : ℚ) ^ ((127 : Int) + 1) :=
    lt_of_le_of_lt hx (by norm_num)
  have hb : binade (g * (13421773 / 16777216)) - 23 ≤ 104 := by
    have := binade_le_of_abs_lt _ 127 (by norm_num) hlt
    omega
  rw [abs_le] at hx ⊢
  constructor
  · have := le_f32_of_le _ (-16777215) 104 hb (by push_cast; linarith [hx.1])
    push_cast at this
    linarith
  · have := f32_le_of_le _ 16777215 104 hb (by push_cast; linarith [hx.2])
    push_cast at this
    linarith

theorem wheelDownGain_eq (g : ℚ) :
    wheelDownGain g = max (8589935 / 8589934592) (f32 (g * (13421773 / 16777216))) := by
  rw [wheelDownGain, f32_lit_0_001, f32_lit_0_8]

theorem wheelDown_gain_fin (g : ℚ) (hg : |g| < (2 : ℚ) ^ (128 : Nat)) :
    Flt.fmax (Flt.lit 0.001) (Flt.rnd (Flt.fin g * Flt.lit 0.8)) = Flt.fin (wheelDownGain g) := by
  have hb := wheelDown_product_bound g hg
  rw [Flt.lit_0_001, Flt.lit_0_8, Flt.fin_mul_fin,
    Flt.rnd_fin _ (lt_of_le_of_lt hb (by norm_num)), Flt.fmax_fin_fin, wheelDownGain_eq]

theorem wheelDownGain_ge (g : ℚ) : 0.001 ≤ wheelDownGain g := by
  rw [wheelDownGain_eq]
  exact le_trans (by norm_num) (le_max_left _ _)

theorem wheelDownGain_abs_lt (g : ℚ) (hg : |g| < (2 : ℚ) ^ (128 : Nat)) :
    |wheelDownGain g| < (2 : ℚ) ^ (128 : Nat) := by
  have hb := wheelDown_product_bound g hg
  have h0 := wheelDownGain_ge g
  rw [abs_of_nonneg (le_trans (by norm_num) h0), wheelDownGain_eq]
  apply max_lt (by norm_num)
  exact lt_of_le_of_lt (le_trans (le_abs_self _) hb) (by norm_num)

theorem wheelDownGain_iterate_abs_lt (g : ℚ) (hg : |g| < (2 : ℚ) ^ (128 : Nat)) (n : Nat) :
    |wheelDownGain^[n] g| < (2 : ℚ) ^ (128 : Nat) := by
  induction n with
  | zero => exact hg
  | succ n ih =>
    rw [Function.iterate_succ_apply']
    exact wheelDownGain_abs_lt _ ih

theorem wheelDownGain_iterate_ge (g : ℚ) (n : Nat) : 0.001 ≤ wheelDownGain^[n + 1] g := by
  rw [Function.iterate_succ_apply']
  exact wheelDownGain_ge _

/-- Repeated wheel-down events on the pin of channel `i` iterate `wheelDownGain` on its
gain and change nothing else. -/
theorem wheelDown_hit_run (cfg : Config) (x y : Int) (i : Nat) (d : Int)
    (hx : x < Int.tdiv (cfg.MOVEPIN_SIZE * 3) 2) (n : Nat) :
    ∀ (st : AudioView) (v : ChannelView) (g : ℚ),
      determineSliderHover cfg st x y = some (Hover.hit i d) → st.views[i]? = some v →
      v.gain = Flt.fin g → |g| < (2 : ℚ) ^ (128 : Nat) →
      run cfg st (wheelDownCalls (n + 1) x y) = some { st with views :=
        (st.views.set i { v with gain := Flt.fin (wheelDownGain^[n + 1] g) }) } := by
  induction n with
  | zero =>
    intro st v g hhit hv hg hfin
    obtain ⟨h1, _⟩ := wheelDown_hit_step cfg st x y i d v hx hhit hv
    simp only [wheelDownCalls, List.replicate, run, step, h1, Option.some_bind, hg,
      wheelDown_gain_fin g hfin, Function.iterate_succ, Function.iterate_zero,
      Function.comp_apply, id_eq]
  | succ n ih =>
    intro st v g hhit hv hg hfin
    obtain ⟨h1, h2⟩ := wheelDown_hit_step cfg st x y i d v hx hhit hv
    have hlen : i < st.views.length := (List.getElem?_eq_some_iff.mp hv).1
    have hv1 : (st.views.set i
        { v with gain := Flt.fmax (Flt.lit 0.001) (Flt.rnd (v.gain * Flt.lit 0.8)) })[i]?
        = some { v with gain := Flt.fmax (Flt.lit 0.001) (Flt.rnd (v.gain * Flt.lit 0.8)) } :=
      List.getElem?_set_self hlen
    have hg1 : ({ v with gain := Flt.fmax (Flt.lit 0.001) (Flt.rnd (v.gain * Flt.lit 0.8)) }
        : ChannelView).gain = Flt.fin (wheelDownGain g) := by
      simp only [hg, wheelDown_gain_fin g hfin]
    have := ih _ _ _ h2 hv1 hg1 (wheelDownGain_abs_lt g hfin)
    have hcalls : wheelDownCalls (n + 1 + 1) x y
        = Call.mousePress MouseButton.WheelDownButton x y :: wheelDownCalls (n + 1) x y := rfl
    rw [hcalls, run, step, h1, Option.some_bind, this]
    simp only [List.set_set, Function.iterate_succ_apply]

theorem wheelDownGain_one : wheelDownGain 1 = 13421773 / 16777216 := by
  rw [wheelDownGain_eq, one_mul,
    f32_eq_of (13421773 / 16777216) (-1) 13421773 (by norm_num) (by norm_num [abs_of_pos])
      (by norm_num [abs_of_pos]) (by norm_num [abs_lt])]
  norm_num

theorem wheelDownGain_of_0_8 : wheelDownGain (13421773 / 16777216) = 10737419 / 16777216 := by
  rw [wheelDownGain_eq,
    f32_eq_of (13421773 / 16777216 * (13421773 / 16777216)) (-1) 10737419 (by norm_num)
      (by norm_num [abs_of_pos]) (by norm_num [abs_of_pos]) (by norm_num [abs_lt])]
  norm_num

theorem wheelDownGain_twice : wheelDownGain^[2] 1 = 10737419 / 16777216 := by
  rw [Function.iterate_succ_apply, Function.iterate_succ_apply, Function.iterate_zero_apply,
    wheelDownGain_one, wheelDownGain_of_0_8]

theorem f32_0_64 : f32 0.64 = 10737418 / 16777216 := by
  rw [f32_eq_of 0.64 (-1) 10737418 (by norm_num) (by norm_num [abs_of_pos])
    (by norm_num [abs_of_pos]) (by norm_num [abs_lt])]
  norm_num

/-- C13 (amended): for every wheel-down event whose pointer is in the left pin column
(`x < MOVEPIN_SIZE*3/2`) and hits the position pin of a channel `i`, the event is defined,
the gain of channel `i` becomes `max(0.001f, gain*0.8f)` as single precision evaluates it
(the literals are the nearest `float` values `8589935 * 2^-33` and `13421773 * 2^-24`, the
product is rounded to the nearest `float`) and nothing else changes: the other entries of
the list, the position and threshold of channel `i`, the time scale, the offset and the
drag state are those of the state before, so that the final assertion of the event holds
when at most one drag is active.  For a gain in the range of the finite `float`
values, repeating the event `n + 1` times iterates the step on the gain, which never
falls below 0.001; two events from the gain 1.0 give `10737419 * 2^-24`. -/
theorem wheelDown_on_pin_scales_gain (cfg : Config) (st : AudioView) (x y : Int) (i : Nat)
    (d : Int) (hx : x < Int.tdiv (cfg.MOVEPIN_SIZE * 3) 2)
    (hhit : determineSliderHover cfg st x y = some (Hover.hit i d)) :
    (∃ v, st.views[i]? = some v ∧
      mousePressEvent cfg st MouseButton.WheelDownButton x y = some { st with views :=
        (st.views.set i
          { v with gain := Flt.fmax (Flt.lit 0.001) (Flt.rnd (v.gain * Flt.lit 0.8)) }) } ∧
      (activeDrags st ≤ 1 →
        mousePressEventAsserted cfg st MouseButton.WheelDownButton x y = some { st with views :=
          (st.views.set i
            { v with gain := Flt.fmax (Flt.lit 0.001) (Flt.rnd (v.gain * Flt.lit 0.8)) }) }) ∧
      ∀ g, v.gain = Flt.fin g → |g| < (2 : ℚ) ^ (128 : Nat) →
        Flt.fmax (Flt.lit 0.001) (Flt.rnd (v.gain * Flt.lit 0.8))
          = Flt.fin (max (8589935 / 8589934592) (f32 (g * (13421773 / 16777216)))) ∧
        ∀ n, run cfg st (wheelDownCalls (n + 1) x y) = some { st with views :=
            (st.views.set i { v with gain := Flt.fin (wheelDownGain^[n + 1] g) }) } ∧
          0.001 ≤ wheelDownGain^[n + 1] g) ∧
    (∀ g, wheelDownGain g = max (8589935 / 8589934592) (f32 (g * (13421773 / 16777216)))) ∧
    wheelDownGain^[2] 1 = 10737419 / 16777216 := by
  have hi := (sliderScan_hit_index hhit).2
  simp only [Nat.zero_add] at hi
  have hstep := (wheelDown_hit_step cfg st x y i d _ hx hhit (List.getElem?_eq_getElem hi)).1
  refine ⟨⟨st.views[i], List.getElem?_eq_getElem hi, hstep, ?_, ?_⟩, wheelDownGain_eq,
    wheelDownGain_twice⟩
  · intro hone
    exact mousePressEventAsserted_eq cfg st _ _ x y hstep hone
  · intro g hg hfin
    refine ⟨?_, fun n => ⟨?_, wheelDownGain_iterate_ge g n⟩⟩
    · rw [hg, wheelDown_gain_fin g hfin, wheelDownGain_eq]
    · exact wheelDown_hit_run cfg x y i d hx n st _ g hhit (List.getElem?_eq_getElem hi) hg
        hfin

theorem determineSliderHover_oneChannelView :
    determineSliderHover scenarioConfig oneChannelView 30 160 = some (Hover.hit 0 0) := by
  norm_num [determineSliderHover, sliderScan, oneChannelView, freshView, AudioView.init,
    newView, scenarioConfig, Flt.ofInt, truncQ_zero]

/-- C13, witness: the wheel turned down on the centre of the pin of the only channel. -/
theorem wheelDown_on_pin_scales_gain_witness :
    (∃ v, oneChannelView.views[0]? = some v ∧
      mousePressEvent scenarioConfig oneChannelView MouseButton.WheelDownButton 30 160
        = some { oneChannelView with views := (oneChannelView.views.set 0
            { v with gain := Flt.fmax (Flt.lit 0.001) (Flt.rnd (v.gain * Flt.lit 0.8)) }) } ∧
      (activeDrags oneChannelView ≤ 1 →
        mousePressEventAsserted scenarioConfig oneChannelView MouseButton.WheelDownButton 30 160
          = some { oneChannelView with views := (oneChannelView.views.set 0
              { v with gain := Flt.fmax (Flt.lit 0.001) (Flt.rnd (v.gain * Flt.lit 0.8)) }) }) ∧
      ∀ g, v.gain = Flt.fin g → |g| < (2 : ℚ) ^ (128 : Nat) →
        Flt.fmax (Flt.lit 0.001) (Flt.rnd (v.gain * Flt.lit 0.8))
          = Flt.fin (max (8589935 / 8589934592) (f32 (g * (13421773 / 16777216)))) ∧
        ∀ n, run scenarioConfig oneChannelView (wheelDownCalls (n + 1) 30 160)
            = some { oneChannelView with views := (oneChannelView.views.set 0
                { v with gain := Flt.fin (wheelDownGain^[n + 1] g) }) } ∧
          0.001 ≤ wheelDownGain^[n + 1] g) ∧
    (∀ g, wheelDownGain g = max (8589935 / 8589934592) (f32 (g * (13421773 / 16777216)))) ∧
    wheelDownGain^[2] 1 = 10737419 / 16777216 :=
  wheelDown_on_pin_scales_gain scenarioConfig oneChannelView 30 160 0 0 (by decide)
    determineSliderHover_oneChannelView

/-- C13, counterexample: one default channel (gain 1.0) and two wheel-down events on the
centre of its pin.  The gain the code stores is `10737419 * 2^-24 = 0.64000004529953...`:
the first event stores `0.8f = 13421773 * 2^-24`, the second the rounded square of it.
That is neither `0.64` nor the `float` nearest to it, `10737418 * 2^-24`. -/
theorem wheelDown_twice_is_not_0_64 :
    run scenarioConfig oneChannelView (wheelDownCalls 2 30 160)
      = some { oneChannelView with
          views := [{ newView 0 with gain := Flt.fin (10737419 / 16777216) }] } ∧
    (10737419 / 16777216 : ℚ) ≠ 0.64 ∧
    (10737419 / 16777216 : ℚ) ≠ f32 0.64 := by
  refine ⟨?_, by norm_num, by rw [f32_0_64]; norm_num⟩
  have h := wheelDown_hit_run scenarioConfig 30 160 0 0 (by decide) 1 oneChannelView
    (newView 0) 1 determineSliderHover_oneChannelView rfl rfl (by norm_num)
  rw [h, wheelDownGain_twice]
  rfl

/-! ## The hit tests of a left press -/

/-- The loop of `determineSliderHover` returns the first channel that passes the pin test. -/
theorem sliderScan_first (cfg : Config) (height x y : Int) (views : List ChannelView)
    (k c : Nat) (dy : Int) (v : ChannelView)
    (hbefore : ∀ j, j < c → ∃ w, views[j]? = some w ∧ offPin cfg height x y w)
    (hv : views[c]? = some v) (hd : pinDistance height y v = some dy)
    (hhit : pinTest cfg (cfg.MOVEPIN_SIZE - x) dy) :
    sliderScan cfg height ((cfg.MOVEPIN_SIZE - x) * (cfg.MOVEPIN_SIZE - x)) y views k
      = some (Hover.hit (k + c) dy) := by
  induction views generalizing k c with
  | nil => simp at hv
  | cons u us ih =>
    cases c with
    | zero =>
      simp only [List.getElem?_cons_zero, Option.some.injEq] at hv
      subst hv
      unfold sliderScan
      unfold pinDistance at hd
      rw [hd, Option.some_bind]
      unfold pinTest at hhit
      simp only []
      rw [if_pos hhit]
      rfl
    | succ c =>
      obtain ⟨w, hw, d0, hd0, hmiss⟩ := hbefore 0 (Nat.succ_pos c)
      simp only [List.getElem?_cons_zero, Option.some.injEq] at hw
      subst hw
      unfold sliderScan
      unfold pinDistance at hd0
      rw [hd0, Option.some_bind]
      unfold pinTest at hmiss
      simp only []
      rw [if_neg hmiss]
      simp only [List.getElem?_cons_succ] at hv
      have := ih (k + 1) c (fun j hj => by
        obtain ⟨w, hw, h⟩ := hbefore (j + 1) (Nat.succ_lt_succ hj)
        exact ⟨w, by simpa using hw, h⟩) hv
      rw [this]
      congr 2
      omega

/-- The gain-handle loop of `mousePressEvent` stops at the first channel that passes the
band test. -/
theorem gainScan_first (height y : Int) (views : List ChannelView)
    (k c : Nat) (d : Int) (v : ChannelView)
    (hbefore : ∀ j, j < c → ∃ w, views[j]? = some w ∧ outOfGainBand height y w)
    (hv : views[c]? = some v) (hin : inGainBand height y v d) :
    gainScan height y views k = some (Hover.hit (k + c) d) := by
  induction views generalizing k c with
  | nil => simp at hv
  | cons u us ih =>
    cases c with
    | zero =>
      simp only [List.getElem?_cons_zero, Option.some.injEq] at hv
      subst hv
      obtain ⟨hd, ht⟩ := hin
      unfold gainDistance at hd
      simp only [Option.map_eq_some'] at hd
      obtain ⟨yy, hyy, rfl⟩ := hd
      unfold gainScan
      rw [hyy, Option.some_bind]
      simp only []
      rw [if_pos ht]
      rfl
    | succ c =>
      obtain ⟨w, hw, d0, hd0, hmiss⟩ := hbefore 0 (Nat.succ_pos c)
      simp only [List.getElem?_cons_zero, Option.some.injEq] at hw
      subst hw
      unfold gainDistance at hd0
      simp only [Option.map_eq_some'] at hd0
      obtain ⟨yy, hyy, rfl⟩ := hd0
      unfold gainScan
      rw [hyy, Option.some_bind]
      simp only [hmiss, Bool.false_eq_true, if_false]
      simp only [List.getElem?_cons_succ] at hv
      have := ih (k + 1) c (fun j hj => by
        obtain ⟨w, hw, h⟩ := hbefore (j + 1) (Nat.succ_lt_succ hj)
        exact ⟨w, by simpa using hw, h⟩) hv
      rw [this]
      congr 2
      omega

/-- A hit of the gain-handle loop is a channel that passes the band test. -/
theorem gainScan_hit (height y : Int) (views : List ChannelView) (k i : Nat) (d : Int)
    (h : gainScan height y views k = some (Hover.hit i d)) :
    ∃ c v, i = k + c ∧ views[c]? = some v ∧ inGainBand height y v d := by
  induction views generalizing k with
  | nil => simp [gainScan] at h
  | cons u us ih =>
    unfold gainScan at h
    cases hyy : (Flt.ofInt height * u.pos - Flt.ofInt y).toInt with
    | none => simp [hyy] at h
    | some yy =>
      simp only [hyy, Option.some_bind] at h
      have h' : (if Flt.lt (Flt.ofInt (if yy < 0 then yy * -1 else yy))
            (Flt.fin 40 + Flt.fin 20 * u.gain) = true
          then some (Hover.hit k (if yy < 0 then yy * -1 else yy))
          else gainScan height y us (k + 1)) = some (Hover.hit i d) := h
      by_cases ht : Flt.lt (Flt.ofInt (if yy < 0 then yy * -1 else yy))
          (Flt.fin 40 + Flt.fin 20 * u.gain) = true
      · rw [if_pos ht] at h'
        simp only [Option.some.injEq, Hover.hit.injEq] at h'
        obtain ⟨rfl, rfl⟩ := h'
        refine ⟨0, u, rfl, by simp, ?_, ht⟩
        simp only [gainDistance, hyy, Option.map_some']
      · rw [if_neg ht] at h'
        obtain ⟨c, v, hi, hv, hin⟩ := ih (k + 1) h'
        exact ⟨c + 1, v, by omega, by simpa using hv, hin⟩

/-! ## The gain drag of a left press -/

theorem abs_truncQ_le (z : ℚ) : |(truncQ z : ℚ)| ≤ |z| := by
  rcases le_total 0 z with h | h
  · have h1 : (0 : ℚ) ≤ truncQ z := by exact_mod_cast truncQ_nonneg h
    rw [abs_of_nonneg h1, abs_of_nonneg h]
    exact truncQ_le_self h
  · have h1 : (truncQ z : ℚ) ≤ 0 := by exact_mod_cast truncQ_nonpos h
    rw [abs_of_nonpos h1, abs_of_nonpos h]
    have := self_le_truncQ h
    linarith

theorem truncQ_eq_zero_iff (z : ℚ) : truncQ z = 0 ↔ |z| < 1 := by
  constructor
  · intro h
    have h1 := lt_truncQ_add_one z
    have h2 := truncQ_sub_one_lt z
    rw [h] at h1 h2
    rw [abs_lt]
    constructor <;> simp at h1 h2 <;> linarith
  · intro h
    rw [abs_lt] at h
    rcases le_total 0 z with h0 | h0
    · exact truncQ_of_nonneg (by simpa using h0) (by simpa using h.2) h0
    · exact truncQ_of_nonpos (by simp; linarith [h.1]) (by simpa using h0) h0

theorem int_abs_eq_ite (t : Int) : (if t < 0 then t * -1 else t) = |t| := by
  split
  · rw [abs_of_neg ‹t < 0›]; ring
  · rw [abs_of_nonneg (not_lt.mp ‹¬ t < 0›)]

theorem Flt.sub_fin_toInt_some {a : Flt} {c : ℚ} {d : Int}
    (h : (a - Flt.fin c).toInt = some d) : ∃ q, a = Flt.fin q := by
  cases a with
  | fin q => exact ⟨q, rfl⟩
  | pinf =>
    have e : (Flt.pinf - Flt.fin c).toInt = none := rfl
    rw [e] at h
    cases h
  | ninf =>
    have e : (Flt.ninf - Flt.fin c).toInt = none := rfl
    rw [e] at h
    cases h
  | nan =>
    have e : (Flt.nan - Flt.fin c).toInt = none := rfl
    rw [e] at h
    cases h

theorem Flt.signedInf_ne_fin (a q : ℚ) : Flt.signedInf a ≠ Flt.fin q := by
  unfold Flt.signedInf
  split_ifs <;> exact fun h => Flt.noConfusion h

theorem Flt.fin_mul_eq_fin {a q : ℚ} {b : Flt} (h : Flt.fin a * b = Flt.fin q) :
    ∃ p, b = Flt.fin p := by
  cases b with
  | fin p => exact ⟨p, rfl⟩
  | pinf => exact absurd h (Flt.signedInf_ne_fin a q)
  | ninf => exact absurd h (Flt.signedInf_ne_fin (-a) q)
  | nan => exact Flt.noConfusion h

/-- The gain-handle distance is defined only for a finite position `p`, and is then
`|trunc(h*p - y)|`. -/
theorem gainDistance_eq_some {height y d : Int} {v : ChannelView}
    (h : gainDistance height y v = some d) :
    ∃ p, v.pos = Flt.fin p ∧ d = |truncQ ((height : ℚ) * p - y)| := by
  unfold gainDistance at h
  simp only [Option.map_eq_some'] at h
  obtain ⟨t, ht, hd⟩ := h
  obtain ⟨q, hq⟩ := Flt.sub_fin_toInt_some ht
  obtain ⟨p, hp⟩ := Flt.fin_mul_eq_fin hq
  refine ⟨p, hp, ?_⟩
  rw [hp] at ht
  simp only [Flt.ofInt, Flt.fin_mul_fin, Flt.fin_sub_fin, Flt.toInt_fin,
    Option.some.injEq] at ht
  rw [← hd, ← ht, int_abs_eq_ite]

/-- A channel whose line is closer to the pointer than `40 + 20*gain` pixels passes the
gain-handle test, which compares the distance truncated to whole pixels. -/
theorem inGainBand_of_near (height y : Int) (w : ChannelView) (p g : ℚ)
    (hp : w.pos = Flt.fin p) (hg : w.gain = Flt.fin g)
    (hnear : |(height : ℚ) * p - y| < 40 + 20 * g) :
    inGainBand height y w |truncQ ((height : ℚ) * p - y)| := by
  constructor
  · simp only [gainDistance, hp, Flt.ofInt, Flt.fin_mul_fin, Flt.fin_sub_fin, Flt.toInt_fin,
      Option.map_some', int_abs_eq_ite]
  · simp only [hg, Flt.ofInt, Flt.fin_mul_fin, Flt.fin_add_fin, Flt.lt_fin_fin,
      decide_eq_true_eq]
    have := abs_truncQ_le ((height : ℚ) * p - y)
    push_cast
    linarith

/-- Left of the threshold column the threshold pin is never hit. -/
theorem determineThreshHover_left (cfg : Config) (s : AudioView) (x y : Int) (r : Option Int)
    (hpin : 0 ≤ cfg.MOVEPIN_SIZE) (hx : (x : ℚ) ≤ (s.width : ℚ) - (cfg.MOVEPIN_SIZE : ℚ) * 1.5)
    (h : determineThreshHover cfg s x y = some r) : r = none := by
  have hpin' : (0 : ℚ) ≤ cfg.MOVEPIN_SIZE := by exact_mod_cast hpin
  unfold determineThreshHover at h
  simp only [Option.bind_eq_some, Option.map_eq_some'] at h
  obtain ⟨tp, _, dy, _, hr⟩ := h
  rw [← hr]
  apply if_neg
  push_cast
  have h1 : (cfg.MOVEPIN_SIZE : ℚ) * 0.5 ≤ (s.width : ℚ) - cfg.MOVEPIN_SIZE - x := by linarith
  have h2 : (0 : ℚ) ≤ (dy : ℚ) * dy := mul_self_nonneg _
  nlinarith

/-- The threshold part of a left press, left of the threshold column or outside threshold
mode, starts no threshold drag and keeps the anchor. -/
theorem pressThresh_left (cfg : Config) (s s' : AudioView) (x y : Int)
    (hpin : 0 ≤ cfg.MOVEPIN_SIZE)
    (hcol : s.threshMode = false ∨ (x : ℚ) ≤ (s.width : ℚ) - (cfg.MOVEPIN_SIZE : ℚ) * 1.5)
    (h : pressThresh cfg s x y = some s') :
    s' = s ∨ s' = { s with clickedThresh := false } := by
  unfold pressThresh at h
  split at h
  · rcases hcol with hc | hc
    · simp_all
    · simp only [Option.map_eq_some'] at h
      obtain ⟨r, hr, rfl⟩ := h
      have := determineThreshHover_left cfg s x y r hpin hc hr
      subst this
      right
      rfl
  · left
    cases h
    rfl

theorem pressThresh_left_defined (cfg : Config) (s : AudioView) (x y : Int)
    (hpin : 0 ≤ cfg.MOVEPIN_SIZE) (hth : s.clickedThresh = false)
    (hcol : s.threshMode = false ∨ (x : ℚ) ≤ (s.width : ℚ) - (cfg.MOVEPIN_SIZE : ℚ) * 1.5)
    (hsel : s.threshMode = true → ∃ tp : ℚ, thresholdPos s = some (Flt.fin tp)) :
    pressThresh cfg s x y = some s := by
  have key : ∀ s', pressThresh cfg s x y = some s' → s' = s := by
    intro s' h
    rcases pressThresh_left cfg s s' x y hpin hcol h with h1 | h1
    · exact h1
    · rw [h1]
      cases s
      simp_all
  cases hm : s.threshMode with
  | false => simp [pressThresh, hm]
  | true =>
    obtain ⟨tp, htp⟩ := hsel hm
    have hdef : ∃ s', pressThresh cfg s x y = some s' := by
      simp only [pressThresh, hm, if_true, determineThreshHover, htp, Option.some_bind,
        Flt.ofInt, Flt.fmax_fin_fin, Flt.fin_sub_fin, Flt.toInt_fin, Option.map_some']
      exact ⟨_, rfl⟩
    obtain ⟨s', hs'⟩ := hdef
    rw [hs', key s' hs']

/-- The gain branch of a left press: right of the pin column, with no gain drag active,
the first channel that passes the band test is grabbed. -/
theorem pressSliderOrGain_gain (cfg : Config) (s : AudioView) (x y : Int) (c : Nat) (d : Int)
    (v : ChannelView) (hgn : s.clickedGain = -1)
    (hx : ¬ (x : ℚ) ≤ (cfg.MOVEPIN_SIZE : ℚ) * 1.5)
    (hcol : s.threshMode = false ∨ (x : ℚ) ≤ (s.width : ℚ) - (cfg.MOVEPIN_SIZE : ℚ) * 1.5)
    (hbefore : ∀ j, j < c → ∃ w, s.views[j]? = some w ∧ outOfGainBand s.height y w)
    (hv : s.views[c]? = some v) (hin : inGainBand s.height y v d) :
    pressSliderOrGain cfg s x y
      = some { s with clickedGain := c, clickedPixelOffset := d, prevGain := v.gain } := by
  have hscan := gainScan_first s.height y s.views 0 c d v hbefore hv hin
  rw [Nat.zero_add] at hscan
  unfold pressSliderOrGain
  rw [if_neg (fun h => hx h.2), if_pos ⟨hgn, hcol⟩, hscan, Option.some_bind]
  simp only [hv, Option.map_some']

/-- A left press that turns `clickedGain` from `-1` into an index went through the gain
branch with a hit of the gain-handle loop. -/
theorem pressSliderOrGain_gain_entered (cfg : Config) (s s1 : AudioView) (x y : Int)
    (hgn : s.clickedGain = -1) (h : pressSliderOrGain cfg s x y = some s1)
    (hent : s1.clickedGain ≠ -1) :
    (s.threshMode = false ∨ (x : ℚ) ≤ (s.width : ℚ) - (cfg.MOVEPIN_SIZE : ℚ) * 1.5) ∧
    ∃ (i : Nat) (d : Int) (v : ChannelView),
      gainScan s.height y s.views 0 = some (Hover.hit i d) ∧ s.views[i]? = some v ∧
      s1 = { s with clickedGain := i, clickedPixelOffset := d, prevGain := v.gain } := by
  unfold pressSliderOrGain at h
  split at h
  · simp only [Option.map_eq_some'] at h
    obtain ⟨r, _, rfl⟩ := h
    cases r <;> exact absurd hgn hent
  · split at h
    · rename_i hc
      refine ⟨hc.2, ?_⟩
      simp only [Option.bind_eq_some] at h
      obtain ⟨r, hr, h⟩ := h
      cases r with
      | miss =>
        simp only [Option.some.injEq] at h
        subst h
        exact absurd hgn hent
      | hit i d =>
        simp only [Option.map_eq_some'] at h
        obtain ⟨v, hv, rfl⟩ := h
        exact ⟨i, d, v, hr, hv, rfl⟩
    · simp only [Option.some.injEq] at h
      subst h
      exact absurd hgn hent

/-- C18 (amended): whenever a left press, made while no gain drag is active, enters the
gain drag of a channel `i`, the anchor it stores in `clickedPixelOffset` is the distance
`|int(h*pos - y)|` between the pointer and the line of channel `i`, truncated to whole
pixels.  It is never negative, and it is non-zero exactly when the pointer is at least
one pixel away from the line; only then is the division by `clickedPixelOffset` in the
gain-drag motion update a division by a non-zero value. -/
theorem gain_drag_anchor (cfg : Config) (s s' : AudioView) (x y : Int)
    (hgn : s.clickedGain = -1) (hpin : 0 ≤ cfg.MOVEPIN_SIZE)
    (hs : mousePressEvent cfg s MouseButton.LeftButton x y = some s')
    (hent : s'.clickedGain ≠ -1) :
    ∃ (i : Nat) (v : ChannelView) (p : ℚ),
      s'.clickedGain = i ∧ s.views[i]? = some v ∧ v.pos = Flt.fin p ∧
      s'.clickedPixelOffset = |truncQ ((s.height : ℚ) * p - y)| ∧
      0 ≤ s'.clickedPixelOffset ∧
      (s'.clickedPixelOffset ≠ 0 ↔ 1 ≤ |(s.height : ℚ) * p - y|) := by
  simp only [mousePressEvent, Option.bind_eq_some] at hs
  obtain ⟨s1, h1, h2⟩ := hs
  have hpres : pressThresh cfg s1 x y = some s' → s'.clickedGain = s1.clickedGain := by
    intro h
    unfold pressThresh at h
    split at h
    · simp only [Option.map_eq_some'] at h
      obtain ⟨r, _, rfl⟩ := h
      cases r <;> rfl
    · cases h
      rfl
  have hent1 : s1.clickedGain ≠ -1 := by
    rw [← hpres h2]
    exact hent
  obtain ⟨hcol, i, d, v, hscan, hv, hs1⟩ :=
    pressSliderOrGain_gain_entered cfg s s1 x y hgn h1 hent1
  obtain ⟨c, v', hic, hv', hband⟩ := gainScan_hit s.height y s.views 0 i d hscan
  rw [Nat.zero_add] at hic
  subst hic
  rw [hv] at hv'
  cases hv'
  obtain ⟨p, hp, hd⟩ := gainDistance_eq_some hband.1
  have hcol1 : s1.threshMode = false ∨
      (x : ℚ) ≤ (s1.width : ℚ) - (cfg.MOVEPIN_SIZE : ℚ) * 1.5 := by
    rw [hs1]
    exact hcol
  have hoff : s'.clickedPixelOffset = d ∧ s'.clickedGain = i := by
    rcases pressThresh_left cfg s1 s' x y hpin hcol1 h2 with h | h
    · rw [h, hs1]
      exact ⟨rfl, rfl⟩
    · rw [h, hs1]
      exact ⟨rfl, rfl⟩
  refine ⟨i, v, p, hoff.2, hv, hp, by rw [hoff.1, hd], by rw [hoff.1, hd]; exact abs_nonneg _,
    ?_⟩
  rw [hoff.1, hd, ne_eq, abs_eq_zero, truncQ_eq_zero_iff, not_lt]

/-! ## The slider drag of a left press -/

/-- A point inside the circle of radius `MOVEPIN_SIZE/2` around the pin centre
`(MOVEPIN_SIZE, pos*h)` passes the pin test, which truncates the vertical distance to
whole pixels. -/
theorem onPin_of_inside (cfg : Config) (height x y : Int) (w : ChannelView) (p : ℚ)
    (hp : w.pos = Flt.fin p)
    (hin : ((cfg.MOVEPIN_SIZE : ℚ) - x) ^ 2 + ((y : ℚ) - height * p) ^ 2
      < ((cfg.MOVEPIN_SIZE : ℚ) / 2) ^ 2) :
    onPin cfg height x y w := by
  refine ⟨truncQ ((y : ℚ) - height * p), ?_, ?_⟩
  · simp only [pinDistance, hp, Flt.ofInt, Flt.fin_mul_fin, Flt.fin_sub_fin, Flt.toInt_fin]
  · unfold pinTest
    have h1 := abs_truncQ_le ((y : ℚ) - height * p)
    have h2 : (truncQ ((y : ℚ) - height * p) : ℚ) ^ 2 ≤ ((y : ℚ) - height * p) ^ 2 :=
      sq_le_sq.mpr h1
    push_cast
    nlinarith

/-- The slider branch of a left press: in the pin column, with no slider drag active, the
first channel whose pin passes the hit test is grabbed and selected. -/
theorem pressSliderOrGain_slider (cfg : Config) (s : AudioView) (x y : Int) (c : Nat)
    (dy : Int) (v : ChannelView) (hsl : s.clickedSlider = -1)
    (hxcol : (x : ℚ) ≤ (cfg.MOVEPIN_SIZE : ℚ) * 1.5)
    (hbefore : ∀ j, j < c → ∃ w, s.views[j]? = some w ∧ offPin cfg s.height x y w)
    (hv : s.views[c]? = some v) (hd : pinDistance s.height y v = some dy)
    (hhit : pinTest cfg (cfg.MOVEPIN_SIZE - x) dy) :
    pressSliderOrGain cfg s x y
      = some { s with clickedSlider := c, clickedPixelOffset := dy, selectedChannel := c } := by
  have hscan := sliderScan_first cfg s.height x y s.views 0 c dy v hbefore hv hd hhit
  rw [Nat.zero_add] at hscan
  unfold pressSliderOrGain
  rw [if_pos ⟨hsl, hxcol⟩]
  simp only [determineSliderHover, hscan, Option.map_some']

/-- The threshold part of a left press leaves the slider drag, the gain drag, the selected
channel and the channel views as they are. -/
theorem pressThresh_fields (cfg : Config) (s s' : AudioView) (x y : Int)
    (h : pressThresh cfg s x y = some s') :
    s'.clickedSlider = s.clickedSlider ∧ s'.selectedChannel = s.selectedChannel ∧
    s'.clickedGain = s.clickedGain ∧ s'.views = s.views := by
  unfold pressThresh at h
  split at h
  · simp only [Option.map_eq_some'] at h
    obtain ⟨r, _, rfl⟩ := h
    cases r <;> exact ⟨rfl, rfl, rfl, rfl⟩
  · cases h
    exact ⟨rfl, rfl, rfl, rfl⟩

/-- The threshold part of a left press is defined when the threshold position is finite. -/
theorem pressThresh_defined (cfg : Config) (s : AudioView) (x y : Int)
    (hsel : s.threshMode = true → ∃ tp : ℚ, thresholdPos s = some (Flt.fin tp)) :
    ∃ s', pressThresh cfg s x y = some s' := by
  by_cases hm : s.threshMode = true
  · obtain ⟨tp, htp⟩ := hsel hm
    simp only [pressThresh, hm, if_true, determineThreshHover, htp, Option.some_bind,
      Flt.ofInt, Flt.fmax_fin_fin, Flt.fin_sub_fin, Flt.toInt_fin, Option.map_some']
    exact ⟨_, rfl⟩
  · simp only [pressThresh, hm, Bool.false_eq_true, if_false]
    exact ⟨_, rfl⟩

/-- In the left pin column, with no slider drag active, the first part of a left press
runs the pin test only and leaves `clickedGain` as it was. -/
theorem pressSliderOrGain_column_gain (cfg : Config) (s s1 : AudioView) (x y : Int)
    (hsl : s.clickedSlider = -1) (hxcol : (x : ℚ) ≤ (cfg.MOVEPIN_SIZE : ℚ) * 1.5)
    (h : pressSliderOrGain cfg s x y = some s1) : s1.clickedGain = s.clickedGain := by
  unfold pressSliderOrGain at h
  rw [if_pos ⟨hsl, hxcol⟩] at h
  simp only [Option.map_eq_some'] at h
  obtain ⟨r, _, rfl⟩ := h
  cases r <;> rfl

/-- C15 (amended): from the idle state (no slider, gain or threshold drag active), let the
pointer be right of the left pin column (`x > 1.5*MOVEPIN_SIZE`) and not in the right
threshold column while threshold mode is on (where the selected channel must exist with a
finite threshold position).  If channel `c` is the first channel that passes the
gain-handle test `|int(pos*h - y)| < 40 + 20*gain`, the distance being truncated to whole
pixels, then the left press is defined, its final assertion holds, it enters the gain drag
of channel `c`, stores that distance as the anchor, snapshots the gain of `c` in
`prevGain`, and changes nothing else.  Every channel with `|pos*h - y| < 40 + 20*gain`
passes the test.  Inside the left pin column (`x <= 1.5*MOVEPIN_SIZE`) a left press from
the idle state starts no gain drag, whether it hits a pin or not. -/
theorem left_press_enters_gain_drag (cfg : Config) (s : AudioView) (x y : Int) (c : Nat)
    (d : Int) (v : ChannelView)
    (hsl : s.clickedSlider = -1) (hgn : s.clickedGain = -1) (hth : s.clickedThresh = false)
    (hx : ¬ (x : ℚ) ≤ (cfg.MOVEPIN_SIZE : ℚ) * 1.5)
    (hcol : s.threshMode = false ∨ (x : ℚ) ≤ (s.width : ℚ) - (cfg.MOVEPIN_SIZE : ℚ) * 1.5)
    (hpin : 0 ≤ cfg.MOVEPIN_SIZE)
    (hsel : s.threshMode = true → ∃ tp : ℚ, thresholdPos s = some (Flt.fin tp))
    (hbefore : ∀ j, j < c → ∃ w, s.views[j]? = some w ∧ outOfGainBand s.height y w)
    (hv : s.views[c]? = some v) (hin : inGainBand s.height y v d) :
    mousePressEventAsserted cfg s MouseButton.LeftButton x y
      = some { s with clickedGain := c, clickedPixelOffset := d, prevGain := v.gain } ∧
    (∀ (w : ChannelView) (p g : ℚ), w.pos = Flt.fin p → w.gain = Flt.fin g →
      |(s.height : ℚ) * p - y| < 40 + 20 * g →
      inGainBand s.height y w |truncQ ((s.height : ℚ) * p - y)|) ∧
    (∀ (x' y' : Int) (s' : AudioView), (x' : ℚ) ≤ (cfg.MOVEPIN_SIZE : ℚ) * 1.5 →
      mousePressEvent cfg s MouseButton.LeftButton x' y' = some s' → s'.clickedGain = -1) := by
  refine ⟨?_, fun w p g hp hg hnear => inGainBand_of_near s.height y w p g hp hg hnear, ?_⟩
  · apply mousePressEventAsserted_eq
    · simp only [mousePressEvent]
      rw [pressSliderOrGain_gain cfg s x y c d v hgn hx hcol hbefore hv hin, Option.some_bind]
      exact pressThresh_left_defined cfg _ x y hpin hth hcol hsel
    · have hc : ((c : Nat) : Int) ≠ -1 := by omega
      simp [activeDrags, hsl, hth, hc]
  · intro x' y' s' hx' hs'
    simp only [mousePressEvent, Option.bind_eq_some] at hs'
    obtain ⟨s1, h1, h2⟩ := hs'
    rw [(pressThresh_fields cfg s1 s' x' y' h2).2.2.1,
      pressSliderOrGain_column_gain cfg s s1 x' y' hsl hx' h1, hgn]

/-- The pin test of a channel whose line lies on a whole pixel row is the test of the
circle of radius `MOVEPIN_SIZE/2` around `(MOVEPIN_SIZE, pos*h)`. -/
theorem onPin_iff_inside (cfg : Config) (height x y : Int) (w : ChannelView) (p : ℚ) (m : Int)
    (hp : w.pos = Flt.fin p) (hm : (height : ℚ) * p = m) :
    onPin cfg height x y w ↔
      ((cfg.MOVEPIN_SIZE : ℚ) - x) ^ 2 + ((y : ℚ) - height * p) ^ 2
        < ((cfg.MOVEPIN_SIZE : ℚ) / 2) ^ 2 := by
  have hdist : pinDistance height y w = some (y - m) := by
    simp only [pinDistance, hp, Flt.ofInt, Flt.fin_mul_fin, Flt.fin_sub_fin, Flt.toInt_fin, hm]
    rw [← Int.cast_sub, truncQ_intCast]
  have key : pinTest cfg (cfg.MOVEPIN_SIZE - x) (y - m) ↔
      ((cfg.MOVEPIN_SIZE : ℚ) - x) ^ 2 + ((y : ℚ) - height * p) ^ 2
        < ((cfg.MOVEPIN_SIZE : ℚ) / 2) ^ 2 := by
    unfold pinTest
    rw [hm]
    push_cast
    constructor <;> intro h <;> nlinarith
  constructor
  · rintro ⟨dy, h1, h2⟩
    rw [hdist] at h1
    cases h1
    exact key.mp h2
  · intro h
    exact ⟨y - m, hdist, key.mpr h⟩

/-- The threshold test of a left press that has just selected channel `c` misses when the
pointer is left of the threshold column and the threshold position of `c` is finite. -/
theorem determineThreshHover_selected_left (cfg : Config) (s : AudioView) (x y : Int) (c : Nat)
    (dy : Int) (v : ChannelView) (hv : s.views[c]? = some v) (hpin : 0 ≤ cfg.MOVEPIN_SIZE)
    (hx : (x : ℚ) ≤ (s.width : ℚ) - (cfg.MOVEPIN_SIZE : ℚ) * 1.5)
    (hfin : ∃ tp : ℚ, Flt.ofInt s.height * (v.pos - v.thresh * v.gain) = Flt.fin tp) :
    determineThreshHover cfg
      { s with clickedSlider := c, clickedPixelOffset := dy, selectedChannel := c } x y
      = some none := by
  obtain ⟨tp, htp⟩ := hfin
  have htp' : thresholdPos
      { s with clickedSlider := c, clickedPixelOffset := dy, selectedChannel := c }
      = some (Flt.fin tp) := by
    simp only [thresholdPos, viewAt, Int.toNat_ofNat, hv, Option.map_some']
    simp only [Int.natCast_nonneg, if_true, Option.map_some', Option.some.injEq]
    exact htp
  have hdef : ∃ r, determineThreshHover cfg
      { s with clickedSlider := c, clickedPixelOffset := dy, selectedChannel := c } x y
      = some r := by
    simp only [determineThreshHover, htp', Option.some_bind, Flt.ofInt, Flt.fmax_fin_fin,
      Flt.fin_sub_fin, Flt.toInt_fin, Option.map_some']
    exact ⟨_, rfl⟩
  obtain ⟨r, hr⟩ := hdef
  rw [hr, determineThreshHover_left cfg
    { s with clickedSlider := c, clickedPixelOffset := dy, selectedChannel := c } x y r hpin
    hx hr]

/-- C16 (amended): from the idle state (no slider, gain or threshold drag active), let the
pointer be in the left pin column (`x <= 1.5*MOVEPIN_SIZE`) and let channel `c` be the
first channel whose pin passes the hit test `(MOVEPIN_SIZE - x)^2 + dy^2 < MOVEPIN_SIZE^2/4`,
where `dy` is `y - pos*h` truncated to whole pixels.  Then `c` is a valid index, and
unless threshold mode is on and the same press hits the threshold pin, the left press is
defined, its final assertion holds, and it enters the slider drag of `c` with the anchor
`dy` and `selectedChannel = c`, changing nothing else: no gain drag starts and every
channel view is unchanged.  When threshold mode is on and the press also hits the
threshold pin, the press sets `clickedThresh` as well and its final assertion fails.  The
threshold pin is missed whenever `x <= width - 1.5*MOVEPIN_SIZE` and the threshold
position of `c` is finite.  Every point inside the circle of radius `MOVEPIN_SIZE/2`
around `(MOVEPIN_SIZE, pos*h)` passes the pin test, and for a channel whose line `pos*h`
lies on a whole pixel row the pin test is the test of that circle. -/
theorem left_press_enters_slider_drag (cfg : Config) (s : AudioView) (x y : Int) (c : Nat)
    (dy : Int) (v : ChannelView)
    (hsl : s.clickedSlider = -1) (hgn : s.clickedGain = -1) (hth : s.clickedThresh = false)
    (hxcol : (x : ℚ) ≤ (cfg.MOVEPIN_SIZE : ℚ) * 1.5)
    (hbefore : ∀ j, j < c → ∃ w, s.views[j]? = some w ∧ offPin cfg s.height x y w)
    (hv : s.views[c]? = some v) (hd : pinDistance s.height y v = some dy)
    (hhit : pinTest cfg (cfg.MOVEPIN_SIZE - x) dy) :
    c < s.views.length ∧
    ((s.threshMode = true → determineThreshHover cfg
        { s with clickedSlider := c, clickedPixelOffset := dy, selectedChannel := c } x y
        = some none) →
      mousePressEventAsserted cfg s MouseButton.LeftButton x y
        = some { s with clickedSlider := c, clickedPixelOffset := dy, selectedChannel := c }) ∧
    (s.threshMode = true → ∀ dy', determineThreshHover cfg
        { s with clickedSlider := c, clickedPixelOffset := dy, selectedChannel := c } x y
        = some (some dy') →
      mousePressEvent cfg s MouseButton.LeftButton x y
        = some { s with clickedSlider := c, clickedPixelOffset := dy', selectedChannel := c,
                        clickedThresh := true } ∧
      mousePressEventAsserted cfg s MouseButton.LeftButton x y = none) ∧
    (0 ≤ cfg.MOVEPIN_SIZE → (x : ℚ) ≤ (s.width : ℚ) - (cfg.MOVEPIN_SIZE : ℚ) * 1.5 →
      (∃ tp : ℚ, Flt.ofInt s.height * (v.pos - v.thresh * v.gain) = Flt.fin tp) →
      determineThreshHover cfg
        { s with clickedSlider := c, clickedPixelOffset := dy, selectedChannel := c } x y
        = some none) ∧
    (∀ (w : ChannelView) (p : ℚ), w.pos = Flt.fin p →
      ((cfg.MOVEPIN_SIZE : ℚ) - x) ^ 2 + ((y : ℚ) - s.height * p) ^ 2
        < ((cfg.MOVEPIN_SIZE : ℚ) / 2) ^ 2 →
      onPin cfg s.height x y w) ∧
    (∀ (w : ChannelView) (p : ℚ) (m : Int), w.pos = Flt.fin p → (s.height : ℚ) * p = m →
      (onPin cfg s.height x y w ↔
        ((cfg.MOVEPIN_SIZE : ℚ) - x) ^ 2 + ((y : ℚ) - s.height * p) ^ 2
          < ((cfg.MOVEPIN_SIZE : ℚ) / 2) ^ 2)) := by
  have hlen : c < s.views.length := (List.getElem?_eq_some_iff.mp hv).1
  have h1 := pressSliderOrGain_slider cfg s x y c dy v hsl hxcol hbefore hv hd hhit
  have hc : ((c : Nat) : Int) ≠ -1 := by omega
  refine ⟨hlen, ?_, ?_, ?_, fun w p hp hin => onPin_of_inside cfg s.height x y w p hp hin,
    fun w p m hp hm => onPin_iff_inside cfg s.height x y w p m hp hm⟩
  · intro hmiss
    apply mousePressEventAsserted_eq
    · simp only [mousePressEvent, h1, Option.some_bind]
      by_cases hm : s.threshMode = true
      · simp only [pressThresh, hm, if_true, hmiss hm, Option.map_some']
        cases s
        simp_all
      · simp only [pressThresh, hm, Bool.false_eq_true, if_false]
    · simp [activeDrags, hgn, hth, hc]
  · intro hm dy' hhov
    have h2 : mousePressEvent cfg s MouseButton.LeftButton x y
        = some { s with clickedSlider := c, clickedPixelOffset := dy', selectedChannel := c,
                        clickedThresh := true } := by
      simp only [mousePressEvent, h1, Option.some_bind]
      unfold pressThresh
      have hm1 : ({ s with clickedSlider := c, clickedPixelOffset := dy, selectedChannel := c }
          : AudioView).threshMode = true := hm
      rw [if_pos hm1, hhov]
      rfl
    refine ⟨h2, mousePressEventAsserted_aborts cfg s _ _ x y h2 ?_⟩
    simp [activeDrags, hgn, hc]
  · intro hpin hx hfin
    exact determineThreshHover_selected_left cfg s x y c dy v hv hpin hx hfin

theorem inGainBand_oneChannelView :
    inGainBand oneChannelView.height 150 (newView 0) 10 := by
  constructor
  · norm_num [gainDistance, oneChannelView, freshView, AudioView.init, newView, Flt.ofInt,
      truncQ_ofNat]
  · norm_num [newView, Flt.ofInt]

theorem not_threshMode_oneChannelView (P : Prop) : oneChannelView.threshMode = true → P := by
  intro h
  exact absurd h (by decide)

/-- C15, witness: one default channel (line at `y = 160`, gain 1), the left button pressed
at `(500, 150)` from the idle state: the gain drag of channel 0 starts with the anchor
10. -/
theorem left_press_enters_gain_drag_witness :
    mousePressEventAsserted scenarioConfig oneChannelView MouseButton.LeftButton 500 150
      = some { oneChannelView with
          clickedGain := (0 : Nat), clickedPixelOffset := 10, prevGain := (newView 0).gain } ∧
    (∀ (w : ChannelView) (p g : ℚ), w.pos = Flt.fin p → w.gain = Flt.fin g →
      |(oneChannelView.height : ℚ) * p - (150 : Int)| < 40 + 20 * g →
      inGainBand oneChannelView.height 150 w
        |truncQ ((oneChannelView.height : ℚ) * p - (150 : Int))|) ∧
    (∀ (x' y' : Int) (s' : AudioView), (x' : ℚ) ≤ (scenarioConfig.MOVEPIN_SIZE : ℚ) * 1.5 →
      mousePressEvent scenarioConfig oneChannelView MouseButton.LeftButton x' y' = some s' →
      s'.clickedGain = -1) :=
  left_press_enters_gain_drag scenarioConfig oneChannelView 500 150 0 10 (newView 0)
    rfl rfl rfl (by norm_num [scenarioConfig]) (Or.inl rfl) (by decide)
    (not_threshMode_oneChannelView _) (fun j hj => absurd hj (Nat.not_lt_zero j)) rfl
    inGainBand_oneChannelView

theorem leftPress_in_pin_column_misses :
    mousePressEvent scenarioConfig oneChannelView MouseButton.LeftButton 10 160
      = some oneChannelView := by
  norm_num [mousePressEvent, pressSliderOrGain, pressThresh, determineSliderHover, sliderScan,
    oneChannelView, freshView, AudioView.init, newView, scenarioConfig, Flt.ofInt, truncQ_zero]

theorem truncQ_121_half : truncQ (121 / 2) = 60 :=
  truncQ_of_nonneg (by norm_num) (by norm_num) (by norm_num)

theorem leftPress_misalignedGainView :
    mousePressEvent scenarioConfig misalignedGainView MouseButton.LeftButton 500 100
      = some { misalignedGainView with
          clickedGain := 0, clickedPixelOffset := 60, prevGain := Flt.fin 1.01 } := by
  norm_num [mousePressEvent, pressSliderOrGain, pressThresh, gainScan, misalignedGainView,
    freshView, AudioView.init, scenarioConfig, Flt.ofInt, truncQ_121_half]

theorem leftPressAsserted_in_pin_column_misses :
    mousePressEventAsserted scenarioConfig oneChannelView MouseButton.LeftButton 10 160
      = some oneChannelView :=
  mousePressEventAsserted_eq _ _ _ _ _ _ leftPress_in_pin_column_misses (by decide)

theorem leftPressAsserted_misalignedGainView :
    mousePressEventAsserted scenarioConfig misalignedGainView MouseButton.LeftButton 500 100
      = some { misalignedGainView with
          clickedGain := 0, clickedPixelOffset := 60, prevGain := Flt.fin 1.01 } :=
  mousePressEventAsserted_eq _ _ _ _ _ _ leftPress_misalignedGainView (by decide)

/-- C15, counterexample.  First, with one default channel (line at `y = 160`) and no drag
active, a left press at `(10, 160)` lies in the left pin column and misses the pin; the
channel satisfies `|pos*h - y| = 0 < 60`, yet no gain drag starts: the gain loop is the
`else` branch of the pin column test.  Second, with the lines of two channels at
`y = 160.5` (gain 1.01) and `y = 200` (gain 5), a press at `(500, 100)` is 60.5 pixels
from the first line, not less than `40 + 20*1.01 = 60.2`, and 100 pixels from the second,
less than 140; the code truncates 60.5 to 60 and enters the gain drag of the first
channel. -/
theorem gain_drag_not_entered_in_pin_column :
    (mousePressEventAsserted scenarioConfig oneChannelView MouseButton.LeftButton 10 160
        = some oneChannelView ∧
      oneChannelView.clickedGain = -1 ∧
      |(400 : ℚ) * 0.4 - 160| < 40 + 20 * 1) ∧
    (mousePressEventAsserted scenarioConfig misalignedGainView MouseButton.LeftButton 500 100
        = some { misalignedGainView with
            clickedGain := 0, clickedPixelOffset := 60, prevGain := Flt.fin 1.01 } ∧
      ¬ (|(400 : ℚ) * 0.40125 - 100| < 40 + 20 * 1.01) ∧
      |(400 : ℚ) * 0.5 - 100| < 40 + 20 * 5) := by
  refine ⟨⟨leftPressAsserted_in_pin_column_misses, rfl, by norm_num⟩,
    leftPressAsserted_misalignedGainView, ?_, ?_⟩
  · norm_num [abs_of_nonneg]
  · norm_num [abs_of_nonneg]

theorem onPin_oneChannelView :
    pinDistance oneChannelView.height 165 (newView 0) = some 5 ∧
    pinTest scenarioConfig (scenarioConfig.MOVEPIN_SIZE - 30) 5 := by
  constructor
  · norm_num [pinDistance, oneChannelView, freshView, AudioView.init, newView, Flt.ofInt,
      truncQ_ofNat]
  · norm_num [pinTest, scenarioConfig]

theorem onPin_narrowThreshView :
    pinDistance narrowThreshView.height 40 (newView 0) = some 0 ∧
    pinTest scenarioConfig (scenarioConfig.MOVEPIN_SIZE - 30) 0 := by
  constructor
  · norm_num [pinDistance, narrowThreshView, AudioView.init, newView, Flt.ofInt, truncQ_zero]
  · norm_num [pinTest, scenarioConfig]

theorem determineThreshHover_narrowThreshView :
    determineThreshHover scenarioConfig
      { narrowThreshView with
        clickedSlider := (0 : Nat), clickedPixelOffset := 0, selectedChannel := (0 : Nat) } 30 40
      = some (some 10) := by
  norm_num [determineThreshHover, thresholdPos, viewAt, narrowThreshView, AudioView.init,
    newView, scenarioConfig, Flt.ofInt, Flt.fmax_fin_fin, truncQ_ofNat]

/-- C16, witness.  One default channel in a 1000 by 400 view (pin centre at `(30, 160)`),
the left button pressed at `(30, 165)` from the idle state: the slider drag of channel 0
starts with the anchor 5.  And one default channel in a 60 by 100 view in threshold mode
(pin centre at `(30, 40)`, threshold pin centre at `(30, 30)`), the left button pressed at
`(30, 40)`: the press hits both pins and its final assertion fails. -/
theorem left_press_enters_slider_drag_witness :
    mousePressEventAsserted scenarioConfig oneChannelView MouseButton.LeftButton 30 165
      = some { oneChannelView with
          clickedSlider := (0 : Nat), clickedPixelOffset := 5, selectedChannel := (0 : Nat) } ∧
    (mousePressEvent scenarioConfig narrowThreshView MouseButton.LeftButton 30 40
      = some { narrowThreshView with
          clickedSlider := (0 : Nat), clickedPixelOffset := 10, selectedChannel := (0 : Nat),
          clickedThresh := true } ∧
      mousePressEventAsserted scenarioConfig narrowThreshView MouseButton.LeftButton 30 40
        = none) :=
  ⟨(left_press_enters_slider_drag scenarioConfig oneChannelView 30 165 0 5 (newView 0)
      rfl rfl rfl (by norm_num [scenarioConfig]) (fun j hj => absurd hj (Nat.not_lt_zero j))
      rfl onPin_oneChannelView.1 onPin_oneChannelView.2).2.1
      (not_threshMode_oneChannelView _),
    (left_press_enters_slider_drag scenarioConfig narrowThreshView 30 40 0 0 (newView 0)
      rfl rfl rfl (by norm_num [scenarioConfig]) (fun j hj => absurd hj (Nat.not_lt_zero j))
      rfl onPin_narrowThreshView.1 onPin_narrowThreshView.2).2.2.1 rfl 10
      determineThreshHover_narrowThreshView⟩

theorem truncQ_23_half : truncQ (23 / 2) = 11 :=
  truncQ_of_nonneg (by norm_num) (by norm_num) (by norm_num)

theorem leftPress_overlappingPinsView :
    mousePressEvent scenarioConfig overlappingPinsView MouseButton.LeftButton 20 172
      = some { overlappingPinsView with
          clickedSlider := 0, clickedPixelOffset := 11, selectedChannel := 0 } := by
  norm_num [mousePressEvent, pressSliderOrGain, pressThresh, determineSliderHover, sliderScan,
    overlappingPinsView, freshView, AudioView.init, scenarioConfig, Flt.ofInt, truncQ_23_half]

theorem leftPressAsserted_overlappingPinsView :
    mousePressEventAsserted scenarioConfig overlappingPinsView MouseButton.LeftButton 20 172
      = some { overlappingPinsView with
          clickedSlider := 0, clickedPixelOffset := 11, selectedChannel := 0 } :=
  mousePressEventAsserted_eq _ _ _ _ _ _ leftPress_overlappingPinsView (by decide)

/-- C16, counterexample: two channels whose pin centres lie at `(30, 160.5)` and at
`(30, 170)`, no drag active, the left button pressed at `(20, 172)`.  The point is outside
the circle of radius 15 of the first pin (`10^2 + 11.5^2 = 232.25 >= 225`) and inside that
of the second (`10^2 + 2^2 = 104 < 225`), so the second channel is the lowest-index
channel whose circle contains it; the code truncates 11.5 to 11, finds `100 + 121 < 225`
and enters the slider drag of the first channel. -/
theorem slider_drag_takes_pin_outside_circle :
    mousePressEventAsserted scenarioConfig overlappingPinsView MouseButton.LeftButton 20 172
      = some { overlappingPinsView with
          clickedSlider := 0, clickedPixelOffset := 11, selectedChannel := 0 } ∧
    ¬ (((30 : ℚ) - 20) ^ 2 + ((172 : ℚ) - 400 * 0.40125) ^ 2 < ((30 : ℚ) / 2) ^ 2) ∧
    ((30 : ℚ) - 20) ^ 2 + ((172 : ℚ) - 400 * 0.425) ^ 2 < ((30 : ℚ) / 2) ^ 2 := by
  refine ⟨leftPressAsserted_overlappingPinsView, ?_, ?_⟩ <;> norm_num

theorem leftPress_oneChannelView_below_line :
    mousePressEvent scenarioConfig oneChannelView MouseButton.LeftButton 500 150
      = some { oneChannelView with
          clickedGain := 0, clickedPixelOffset := 10, prevGain := Flt.fin 1 } := by
  norm_num [mousePressEvent, pressSliderOrGain, pressThresh, gainScan, oneChannelView,
    freshView, AudioView.init, newView, scenarioConfig, Flt.ofInt, truncQ_ofNat]

/-- C18, witness: one default channel (line at `y = 160`), the left button pressed at
`(500, 150)`; the anchor is 10. -/
theorem gain_drag_anchor_witness :
    ∃ (i : Nat) (v : ChannelView) (p : ℚ),
      ({ oneChannelView with
          clickedGain := 0, clickedPixelOffset := 10, prevGain := Flt.fin 1 }
        : AudioView).clickedGain = i ∧
      oneChannelView.views[i]? = some v ∧ v.pos = Flt.fin p ∧
      ({ oneChannelView with
          clickedGain := 0, clickedPixelOffset := 10, prevGain := Flt.fin 1 }
        : AudioView).clickedPixelOffset
        = |truncQ ((oneChannelView.height : ℚ) * p - (150 : Int))| ∧
      0 ≤ ({ oneChannelView with
          clickedGain := 0, clickedPixelOffset := 10, prevGain := Flt.fin 1 }
        : AudioView).clickedPixelOffset ∧
      (({ oneChannelView with
          clickedGain := 0, clickedPixelOffset := 10, prevGain := Flt.fin 1 }
        : AudioView).clickedPixelOffset ≠ 0
        ↔ 1 ≤ |(oneChannelView.height : ℚ) * p - (150 : Int)|) :=
  gain_drag_anchor scenarioConfig oneChannelView _ 500 150 rfl (by decide)
    leftPress_oneChannelView_below_line (by decide)

theorem run_pressOnLineCalls :
    run scenarioConfig (AudioView.init 1000 400 (Flt.fin 1)) pressOnLineCalls
      = some gainDragView := by
  norm_num [run, step, pressOnLineCalls, updateView, List.range', mousePressEvent,
    pressSliderOrGain, pressThresh, gainScan, gainDragView, AudioView.init, newView,
    scenarioConfig, Flt.ofInt, truncQ_zero]

/-- C18, counterexample: one channel is created and the left button is pressed at
`(500, 160)`, exactly on the line of the channel (`0.4 * 400 = 160`).  The distance 0
passes the test `0 < 40 + 20*gain`, the gain drag of channel 0 starts and the anchor
`clickedPixelOffset` is 0. -/
theorem gain_drag_anchor_zero_on_line :
    run scenarioConfig (AudioView.init 1000 400 (Flt.fin 1)) pressOnLineCalls
      = some gainDragView ∧
    gainDragView.clickedGain = 0 ∧ gainDragView.clickedGain ≠ -1 ∧
    gainDragView.clickedPixelOffset = 0 :=
  ⟨run_pressOnLineCalls, rfl, by decide, rfl⟩

end BackyardBrains
